import Mathlib

/-!
# A shallow embedding of `hash_table.h` (generic chained hash table in C)

The C header generates, for one choice of key type, value type, hash function,
equality predicate, allocator and four policy constants, a table type and the
operations `ht_init`, `ht_size`, `ht_clear`, `ht_find`, `ht_insert`, `ht_erase`
and `ht_rehash`.

Modelling decisions.

* A bucket chain (`first` / `next` pointers ending in `NULL`) is a `List` of items,
  head first.  The bucket array `binVec` is `none` for `NULL` and otherwise the list
  of its chains.
* An item carries, besides `key` and `value`, the address `addr` that `malloc_func`
  returned for it: this is the identity of the node.  A `value_type*` result is
  represented by the item whose `value` field it points to (`none` for `NULL`).
* Every call of `malloc_func` is a parameter of the operation that makes it: a `Bool`
  for a bucket array (`false` is `NULL`), an `Option Nat` for an item (`none` is
  `NULL`, `some a` the address of the new node).  `free_func` has no effect on the
  table state and is not modelled.
* `size_t` counters are natural numbers.  `itemCount` counts heap nodes that each
  occupy several bytes, so it cannot reach `2 ^ 64`; the only subtraction is guarded
  by `itemCount > 0`.
* Where C would have undefined behaviour (a division or remainder by a zero
  `binCount`, an index outside the bucket array) the model uses the total
  operations of `Nat` and `List` (`x / 0 = 0`, `x % 0 = x`, `getD`, `set` outside the
  list is the identity).  None of this is reached from a well-formed table.
-/

namespace HashTable

/-- The parameters of `HASH_TABLE_DEFINE` that influence behaviour: the hash function,
the equality predicate and the four policy constants. -/
structure Params (K : Type) where
  hash_func : K → Nat
  pred_func : K → K → Bool
  min_bin_size_val : Nat
  aim_ldfac_val : Nat
  max_ldfac_val : Nat
  min_inv_ldfac_val : Nat

/-- `HASH_TABLE_DEFINE7`: the policy constants default to 32, 2, 16, 16. -/
def HASH_TABLE_DEFINE7 {K : Type} (hash_func : K → Nat) (pred_func : K → K → Bool) :
    Params K :=
  { hash_func := hash_func, pred_func := pred_func,
    min_bin_size_val := 32, aim_ldfac_val := 2, max_ldfac_val := 16,
    min_inv_ldfac_val := 16 }

/-- `HASH_TABLE_DEFAULT_HASH(key)` is `(key)`. -/
def HASH_TABLE_DEFAULT_HASH (key : Nat) : Nat := key

/-- `HASH_TABLE_DEFAULT_PRED(key1, key2)` is `((key1)==(key2))`. -/
def HASH_TABLE_DEFAULT_PRED (key1 key2 : Nat) : Bool := key1 == key2

/-- The instantiation of the test programs:
`HASH_TABLE_DEFINE7(htest, size_t, size_t, HASH_TABLE_DEFAULT_HASH, HASH_TABLE_DEFAULT_PRED, malloc, free)`. -/
def htest : Params Nat := HASH_TABLE_DEFINE7 HASH_TABLE_DEFAULT_HASH HASH_TABLE_DEFAULT_PRED

/-- `struct ht_type##_item`: key, value, and (in place of the `next` pointer, which the
list structure of a chain carries) the address of the node. -/
structure ht_item (K V : Type) where
  key : K
  value : V
  addr : Nat
deriving DecidableEq

/-- `struct ht_type##_bin`: the chain starting at `first`. -/
abbrev ht_bin (K V : Type) := List (ht_item K V)

/-- The table struct: `itemCount`, `binCount`, `binVec`. -/
structure ht_type (K V : Type) where
  itemCount : Nat
  binCount : Nat
  binVec : Option (List (ht_bin K V))
deriving DecidableEq

variable {K V : Type}

/-- `ht_init`: both counters are zero and the bucket array is `NULL`. -/
def ht_init : ht_type K V :=
  { itemCount := 0, binCount := 0, binVec := none }

/-- `ht_size`: the `itemCount` field. -/
def ht_size (t : ht_type K V) : Nat := t.itemCount

/-- The bucket array as a list of chains (empty when `binVec` is `NULL`). -/
def bins (t : ht_type K V) : List (ht_bin K V) := t.binVec.getD []

/-- `ht_clear`: frees every node and the bucket array, then stores the three values
that `ht_init` stores.  The stores are unconditional, so the resulting state does not
depend on the table. -/
def ht_clear (_t : ht_type K V) : ht_type K V :=
  { itemCount := 0, binCount := 0, binVec := none }

/-- `ht_find`: under the guard `itemCount>0 && binCount>0`, scan the chain of bucket
`hash_func(key) % binCount` for the first item with `pred_func(key, item->key)`. -/
def ht_find (P : Params K) (t : ht_type K V) (key : K) : Option (ht_item K V) :=
  if 0 < t.itemCount ∧ 0 < t.binCount then
    ((bins t).getD (P.hash_func key % t.binCount) []).find?
      (fun item => P.pred_func key item.key)
  else none

/-- The inner `while` loop body of `ht_rehash`: push `item` on the head of bucket
`hash_func(item->key) % aimBinCount` of the new array. -/
def relink (P : Params K) (aimBinCount : Nat) (newBinVec : List (ht_bin K V))
    (item : ht_item K V) : List (ht_bin K V) :=
  newBinVec.set (P.hash_func item.key % aimBinCount)
    (item :: newBinVec.getD (P.hash_func item.key % aimBinCount) [])

/-- The `for(i=0;i<ht_ptr->binCount;++i)` loop of `ht_rehash`: every old chain is
walked from its head and each item relinked. -/
def relinkAll (P : Params K) (aimBinCount : Nat) (t : ht_type K V)
    (newBinVec : List (ht_bin K V)) : List (ht_bin K V) :=
  (List.range t.binCount).foldl
    (fun acc i => ((bins t).getD i []).foldl (relink P aimBinCount) acc) newBinVec

/-- The target bucket count of `ht_rehash`: `itemCount / aim_ldfac_val`, raised to
`min_bin_size_val` when smaller. -/
def aimBinCount (P : Params K) (t : ht_type K V) : Nat :=
  if t.itemCount / P.aim_ldfac_val < P.min_bin_size_val then P.min_bin_size_val
  else t.itemCount / P.aim_ldfac_val

/-- `ht_rehash`.  `mallocBins` tells whether the allocation of the new bucket array
succeeds; it is consulted only when the target differs from `binCount`. -/
def ht_rehash (P : Params K) (t : ht_type K V) (mallocBins : Bool) : ht_type K V :=
  if aimBinCount P t ≠ t.binCount then
    if mallocBins then
      { itemCount := t.itemCount
        binCount := aimBinCount P t
        binVec := some
          (if 0 < t.itemCount then
            relinkAll P (aimBinCount P t) t (List.replicate (aimBinCount P t) [])
          else List.replicate (aimBinCount P t) []) }
    else t
  else t

/-- The table that lines 185-193 of `ht_insert` set up once the allocation of the
first bucket array has succeeded: `min_bin_size_val` buckets, all empty, and
`itemCount` reset to zero. -/
def freshBins (P : Params K) : ht_type K V :=
  { itemCount := 0, binCount := P.min_bin_size_val,
    binVec := some (List.replicate P.min_bin_size_val []) }

/-- The first part of `ht_insert`: when `binVec` is `NULL`, allocate the bucket array;
`none` when that allocation fails. -/
def lazyAlloc (P : Params K) (t : ht_type K V) (mallocBins : Bool) :
    Option (ht_type K V) :=
  match t.binVec with
  | some _ => some t
  | none => if mallocBins then some (freshBins P) else none

/-- Lines 220-224 of `ht_insert`: the new node is stored through `insertPtr`, that is,
after the last node of the chain of bucket `hash_func(key) % binCount`, and
`itemCount` is incremented. -/
def linkItem (P : Params K) (t : ht_type K V) (itemPtr : ht_item K V) : ht_type K V :=
  { itemCount := t.itemCount + 1
    binCount := t.binCount
    binVec := some ((bins t).set (P.hash_func itemPtr.key % t.binCount)
      ((bins t).getD (P.hash_func itemPtr.key % t.binCount) [] ++ [itemPtr])) }

/-- `ht_insert`.  The result is the returned pointer (`none` for `NULL`) and the table
afterwards.  `mallocBins` answers the allocation of the first bucket array,
`mallocItem` the allocation of the new node, `mallocRehash` the allocation inside an
automatically triggered `ht_rehash`.  The chain scan tests
`pred_func(itemPtr->key, key)` and a new node is linked after the last one. -/
def ht_insert (P : Params K) (t : ht_type K V) (key : K) (value : V)
    (mallocBins : Bool) (mallocItem : Option Nat) (mallocRehash : Bool) :
    Option (ht_item K V) × ht_type K V :=
  match lazyAlloc P t mallocBins with
  | none => (none, t)
  | some t1 =>
    match ((bins t1).getD (P.hash_func key % t1.binCount) []).find?
        (fun itemPtr => P.pred_func itemPtr.key key) with
    | some itemPtr => (some itemPtr, t1)
    | none =>
      match mallocItem with
      | none => (none, t1)
      | some a =>
        let itemPtr : ht_item K V := { key := key, value := value, addr := a }
        let t2 := linkItem P t1 itemPtr
        if t2.itemCount / t2.binCount > P.max_ldfac_val then
          (some itemPtr, ht_rehash P t2 mallocRehash)
        else (some itemPtr, t2)

/-- The chain walk of `ht_erase`: unlink the first item with
`pred_func(key, item->key)`; `none` when the chain has no such item. -/
def eraseChain (P : Params K) (key : K) : ht_bin K V → Option (ht_bin K V)
  | [] => none
  | item :: next =>
    if P.pred_func key item.key then some next
    else (eraseChain P key next).map (fun c => item :: c)

/-- Lines 242-244 of `ht_erase`: the bucket of `key` now holds the chain without the
erased node, and `itemCount` is decremented. -/
def unlinkItem (P : Params K) (t : ht_type K V) (key : K) (chain : ht_bin K V) :
    ht_type K V :=
  { itemCount := t.itemCount - 1
    binCount := t.binCount
    binVec := some ((bins t).set (P.hash_func key % t.binCount) chain) }

/-- `ht_erase`.  The result is the returned `int` (1 or 0) and the table afterwards.
`mallocRehash` answers the allocation inside an automatically triggered
`ht_rehash`. -/
def ht_erase (P : Params K) (t : ht_type K V) (key : K) (mallocRehash : Bool) :
    Nat × ht_type K V :=
  if 0 < t.itemCount ∧ 0 < t.binCount then
    match eraseChain P key ((bins t).getD (P.hash_func key % t.binCount) []) with
    | some chain =>
      let t1 := unlinkItem P t key chain
      if 0 < t1.itemCount ∧ t1.binCount / t1.itemCount > P.min_inv_ldfac_val then
        (1, ht_rehash P t1 mallocRehash)
      else (1, t1)
    | none => (0, t)
  else (0, t)

/-! ## Specification-level notions -/

/-- What the header asks of an instantiation: `pred_func` tells when two keys "are
considered the same" (an equivalence relation), keys considered the same have the same
hash, and the minimum bucket count and the aim load factor are positive (so that the
divisions and remainders of the code are defined). -/
structure Lawful (P : Params K) : Prop where
  refl : ∀ a, P.pred_func a a = true
  symm : ∀ a b, P.pred_func a b = true → P.pred_func b a = true
  trans : ∀ a b c, P.pred_func a b = true → P.pred_func b c = true → P.pred_func a c = true
  hash_eq : ∀ a b, P.pred_func a b = true → P.hash_func a = P.hash_func b
  min_pos : 0 < P.min_bin_size_val
  aim_pos : 0 < P.aim_ldfac_val

/-- All the items of the table, bucket after bucket. -/
def items (t : ht_type K V) : List (ht_item K V) := (bins t).flatten

/-- Well-formed tables (the invariants of the data model): the bucket array is absent
exactly when `binCount` is zero and otherwise has `binCount` buckets; `itemCount` is
the number of items; an item in bucket `i` hashes to `i`; no two items have keys that
the predicate considers the same. -/
def wf (P : Params K) (t : ht_type K V) : Prop :=
  (t.binVec.isSome = true ↔ 0 < t.binCount) ∧
  (bins t).length = t.binCount ∧
  t.itemCount = (items t).length ∧
  (∀ i < t.binCount, ∀ item ∈ (bins t).getD i [],
    P.hash_func item.key % t.binCount = i) ∧
  (items t).Pairwise (fun a b => P.pred_func a.key b.key = false)

instance (P : Params K) (t : ht_type K V) : Decidable (wf P t) := by
  unfold wf; infer_instance

/-- The items of all buckets other than bucket `i`. -/
def others {α : Type} (bv : List (List α)) (i : Nat) : List α :=
  (bv.take i).flatten ++ (bv.drop (i + 1)).flatten

/-- One call on a table, with the answers of the allocator to the allocations the call
may make. -/
inductive Op (K V : Type) where
  | insert (key : K) (value : V) (mallocBins : Bool) (mallocItem : Option Nat)
      (mallocRehash : Bool)
  | erase (key : K) (mallocRehash : Bool)
  | find (key : K)
  | rehash (mallocBins : Bool)
  | clear

/-- The table after one call. -/
def step (P : Params K) (t : ht_type K V) : Op K V → ht_type K V
  | .insert key value mb mi mr => (ht_insert P t key value mb mi mr).2
  | .erase key mr => (ht_erase P t key mr).2
  | .find _ => t
  | .rehash mb => ht_rehash P t mb
  | .clear => ht_clear t

/-- The table after a sequence of calls. -/
def run (P : Params K) (t : ht_type K V) (ops : List (Op K V)) : ht_type K V :=
  ops.foldl (step P) t

/-- No allocation of the call fails. -/
def Op.allocOk : Op K V → Bool
  | .insert _ _ mb mi mr => mb && mi.isSome && mr
  | .erase _ mr => mr
  | .find _ => true
  | .rehash mb => mb
  | .clear => true

/-- The reference associative map of the specification: a list of key/value pairs,
looked up with the equality predicate. -/
abbrev RefMap (K V : Type) := List (K × V)

/-- Reference lookup: the value of the entry whose key is considered the same. -/
def ref_find (P : Params K) (m : RefMap K V) (key : K) : Option V :=
  (m.find? (fun p => P.pred_func key p.1)).map (fun p => p.2)

/-- Reference insert, with insert-if-absent semantics. -/
def ref_insert (P : Params K) (m : RefMap K V) (key : K) (value : V) : RefMap K V :=
  match ref_find P m key with
  | some _ => m
  | none => m ++ [(key, value)]

/-- Reference erase: remove the entry whose key is considered the same. -/
def ref_erase (P : Params K) (m : RefMap K V) (key : K) : RefMap K V :=
  m.eraseP (fun p => P.pred_func key p.1)

/-- The reference map after one call. -/
def ref_step (P : Params K) (m : RefMap K V) : Op K V → RefMap K V
  | .insert key value _ _ _ => ref_insert P m key value
  | .erase key _ => ref_erase P m key
  | .find _ => m
  | .rehash _ => m
  | .clear => []

/-- The reference map after a sequence of calls. -/
def ref_run (P : Params K) (m : RefMap K V) (ops : List (Op K V)) : RefMap K V :=
  ops.foldl (ref_step P) m

/-- The key/value pair that an item stores. -/
def kv (item : ht_item K V) : K × V := (item.key, item.value)

/-- The table `t` represents the reference map `m`: `t` is well formed and its items
store, up to order, the pairs of `m`. -/
def Sim (P : Params K) (t : ht_type K V) (m : RefMap K V) : Prop :=
  wf P t ∧ ((items t).map kv).Perm m

/-- The load bound that holds while no allocation fails (stated for any policy): a
bucket array that is present has at least `min_bin_size_val` buckets, and
`itemCount / binCount` does not exceed `max_ldfac_val`. -/
def LoadOk (P : Params K) (t : ht_type K V) : Prop :=
  (t.binVec.isSome = true → P.min_bin_size_val ≤ t.binCount) ∧
  t.itemCount / t.binCount ≤ P.max_ldfac_val

/-- The policy constants are the defaults of `HASH_TABLE_DEFINE7`. -/
def IsDefault (P : Params K) : Prop :=
  P.min_bin_size_val = 32 ∧ P.aim_ldfac_val = 2 ∧ P.max_ldfac_val = 16 ∧
    P.min_inv_ldfac_val = 16

/-! ## Concrete instantiations and call sequences used as examples -/

/-- An instantiation over `size_t` keys with small policy constants (minimum 2 buckets,
aim load factor 1, maximum load factor 1, minimum-inverse load factor 2), so that a
handful of calls already triggers a rehash. -/
def smallPolicy : Params Nat :=
  { hash_func := HASH_TABLE_DEFAULT_HASH, pred_func := HASH_TABLE_DEFAULT_PRED,
    min_bin_size_val := 2, aim_ldfac_val := 1, max_ldfac_val := 1,
    min_inv_ldfac_val := 2 }

/-- Three inserts, every allocation succeeding. -/
def threeInserts : List (Op Nat Nat) :=
  [.insert 0 100 true (some 1000) true, .insert 1 101 true (some 1001) true,
   .insert 2 102 true (some 1002) true]

/-- Two inserts, every allocation succeeding. -/
def twoInserts : List (Op Nat Nat) :=
  [.insert 1 10 true (some 1001) true, .insert 2 20 true (some 1002) true]

/-- A mixed sequence of calls, every allocation succeeding. -/
def mixedCalls : List (Op Nat Nat) :=
  [.insert 1 10 true (some 1001) true, .insert 33 20 true (some 1002) true,
   .insert 1 30 true (some 1003) true, .find 33, .erase 1 true,
   .insert 65 40 true (some 1004) true]

/-- Four inserts that grow the `smallPolicy` table to four buckets, then two erases;
every allocation succeeds. -/
def growThenErase : List (Op Nat Nat) :=
  [.insert 0 100 true (some 1000) true, .insert 1 101 true (some 1001) true,
   .insert 2 102 true (some 1002) true, .insert 3 103 true (some 1003) true,
   .erase 0 true, .erase 1 true]

/-- The table on which `ht_insert` works after its lazy allocation step has
succeeded: the table itself when the bucket array is present, the fresh bucket array
otherwise. -/
def afterLazyAlloc (P : Params K) (t : ht_type K V) : ht_type K V :=
  if t.binVec.isSome = true then t else freshBins P

/-- The structural invariant of the table, which needs nothing of the hash function
or the predicate: without a bucket array `binCount` is zero; a bucket array that is
present has `binCount` buckets, at least `min_bin_size_val` of them; `itemCount` is the
number of items; an item in bucket `i` hashes to `i`. -/
def Shaped (P : Params K) (t : ht_type K V) : Prop :=
  (t.binVec.isSome = false → t.binCount = 0) ∧
  (t.binVec.isSome = true → P.min_bin_size_val ≤ t.binCount) ∧
  (bins t).length = t.binCount ∧
  t.itemCount = (items t).length ∧
  (∀ i < t.binCount, ∀ item ∈ (bins t).getD i [],
    P.hash_func item.key % t.binCount = i)

instance (P : Params K) (t : ht_type K V) : Decidable (Shaped P t) := by
  unfold Shaped; infer_instance

/-- The calls `ht_insert(key, value)` for the given nodes, in order, every allocation
succeeding; the node of a call is the one that `malloc_func` returns for it. -/
def insertCalls (l : List (ht_item K V)) : List (Op K V) :=
  l.map (fun item => Op.insert item.key item.value true (some item.addr) true)

/-- The call does not remove the entry of `key`: it is neither `ht_clear` nor an
`ht_erase` of a key considered the same as `key`. -/
def Op.keeps (P : Params K) (key : K) : Op K V → Bool
  | .erase k _ => !P.pred_func k key
  | .clear => false
  | _ => true

/-- The call is `ht_clear`. -/
def Op.isClear : Op K V → Bool
  | .clear => true
  | _ => false

/-- Whether `ht_insert` reaches its call of `ht_rehash` (line 226): the bucket array is
present or has just been allocated, the chain scan finds no matching key, the node
allocation succeeds, and the incremented `itemCount` divided by `binCount` exceeds
`max_ldfac_val`. -/
def rehashTriggered (P : Params K) (t : ht_type K V) (key : K) (mallocBins : Bool)
    (mallocItem : Option Nat) : Bool :=
  match lazyAlloc P t mallocBins with
  | none => false
  | some t1 =>
    match ((bins t1).getD (P.hash_func key % t1.binCount) []).find?
        (fun itemPtr => P.pred_func itemPtr.key key) with
    | some _ => false
    | none => mallocItem.isSome && decide ((t1.itemCount + 1) / t1.binCount > P.max_ldfac_val)

/-- The remainder and the array index of line 160 of `ht_find`, which are evaluated
under the guard `itemCount>0 && binCount>0`: the divisor `binCount` is not zero, the
bucket array is present and the index is within it. -/
def find_defined (P : Params K) (t : ht_type K V) (key : K) : Prop :=
  0 < t.itemCount ∧ 0 < t.binCount →
    t.binCount ≠ 0 ∧ t.binVec.isSome = true ∧
      P.hash_func key % t.binCount < (bins t).length

/-- The remainder and the array index of line 196 of `ht_insert` and the division of
line 225, which are evaluated once the bucket array is present (the node linked in
between does not change `binCount`): the divisor `binCount` is not zero and the index
is within the bucket array. -/
def insert_defined (P : Params K) (t : ht_type K V) (key : K) (mallocBins : Bool) : Prop :=
  match lazyAlloc P t mallocBins with
  | none => True
  | some t1 =>
    t1.binCount ≠ 0 ∧ t1.binVec.isSome = true ∧
      P.hash_func key % t1.binCount < (bins t1).length ∧
      ∀ item, (linkItem P t1 item).binCount ≠ 0

/-- The remainder and the array index of line 236 of `ht_erase`, evaluated under the
guard `itemCount>0 && binCount>0`, and the division `binCount / itemCount` of line 245,
which is the right operand of an `&&` whose left operand is `itemCount>0` and is
evaluated only when that holds. -/
def erase_defined (P : Params K) (t : ht_type K V) (key : K) : Prop :=
  (0 < t.itemCount ∧ 0 < t.binCount →
    t.binCount ≠ 0 ∧ t.binVec.isSome = true ∧
      P.hash_func key % t.binCount < (bins t).length) ∧
  ∀ chain, 0 < (unlinkItem P t key chain).itemCount →
    (unlinkItem P t key chain).itemCount ≠ 0

/-- The first `n` keys `0, 1, ..., n-1` as nodes to insert: key `i` with value `10 * i`
in a node at address `1000 + i`. -/
def firstKeys (n : Nat) : List (ht_item Nat Nat) :=
  (List.range n).map (fun i => { key := i, value := 10 * i, addr := 1000 + i })

/-- The bucket count after `n` inserts of new keys into a freshly initialised table
with the default policy and no allocation failure, for `n < 4624`: the first insert
allocates 32 buckets, and the 544th (544 / 32 = 17 > 16) rehashes to 544 / 2 = 272. -/
def bucketsAfter (n : Nat) : Nat :=
  if n = 0 then 0 else if n < 544 then 32 else 272

/-- A sequence of calls in which some allocations fail: a failing first bucket-array
allocation, a direct rehash of the empty table, a failing node allocation, and later
calls whose rehash allocation would fail. -/
def callsWithFailures : List (Op Nat Nat) :=
  [.insert 1 10 false (some 1001) true, .rehash true, .insert 1 10 true none true,
   .insert 1 10 true (some 1001) false, .insert 33 20 true (some 1002) true,
   .erase 5 false, .rehash false, .insert 65 30 true (some 1003) true]

/-- Calls that leave the entry of key 1 in place: inserts, an erase of another key and
two rehashes. -/
def callsKeepingOne : List (Op Nat Nat) :=
  [.insert 3 30 true (some 1003) true, .erase 2 true, .rehash true,
   .insert 1 99 true (some 1004) true, .rehash false]

/-! ## Lists of chains -/

section Lists
variable {α β : Type}

theorem map_getD_range (l : List α) (d : α) :
    (List.range l.length).map (fun i => l.getD i d) = l := by
  apply List.ext_getElem
  · simp
  · intro i h1 h2
    simp [List.getD_eq_getElem?_getD, h2]

theorem foldl_range_getD (f : β → α → β) (l : List α) (d : α) (b : β) :
    (List.range l.length).foldl (fun acc i => f acc (l.getD i d)) b = l.foldl f b := by
  conv_rhs => rw [← map_getD_range l d]
  rw [List.foldl_map]

theorem flatten_perm_getD (bv : List (List α)) (i : Nat) (h : i < bv.length) :
    bv.flatten.Perm (bv.getD i [] ++ others bv i) := by
  have e : bv = bv.take i ++ bv[i] :: bv.drop (i + 1) := by
    rw [List.getElem_cons_drop, List.take_append_drop]
  conv_lhs => rw [e]
  rw [List.getD_eq_getElem _ _ h, others]
  simp only [List.flatten_append, List.flatten_cons]
  rw [← List.append_assoc, ← List.append_assoc]
  exact List.Perm.append_right _ List.perm_append_comm

theorem flatten_set_perm (bv : List (List α)) (i : Nat) (c : List α) (h : i < bv.length) :
    (bv.set i c).flatten.Perm (c ++ others bv i) := by
  rw [List.set_eq_take_append_cons_drop, if_pos h, others]
  simp only [List.flatten_append, List.flatten_cons]
  rw [← List.append_assoc, ← List.append_assoc]
  exact List.Perm.append_right _ List.perm_append_comm

theorem getD_set (bv : List (List α)) (i j : Nat) (c : List α) (h : i < bv.length) :
    (bv.set i c).getD j [] = if i = j then c else bv.getD j [] := by
  simp only [List.getD_eq_getElem?_getD, List.getElem?_set]
  split
  · simp [h]
  · rfl

theorem lt_of_mem_getD (bv : List (List α)) (i : Nat) (x : α) (h : x ∈ bv.getD i []) :
    i < bv.length := by
  by_contra hn
  rw [List.getD_eq_default _ _ (by omega)] at h
  simp at h

theorem mem_flatten_of_mem_getD (bv : List (List α)) (i : Nat) (x : α)
    (h : x ∈ bv.getD i []) : x ∈ bv.flatten := by
  have hi := lt_of_mem_getD bv i x h
  rw [List.getD_eq_getElem _ _ hi] at h
  exact List.mem_flatten.2 ⟨bv[i], List.getElem_mem _, h⟩

theorem exists_getD_of_mem_flatten (bv : List (List α)) (x : α) (h : x ∈ bv.flatten) :
    ∃ i, i < bv.length ∧ x ∈ bv.getD i [] := by
  obtain ⟨c, hc, hx⟩ := List.mem_flatten.1 h
  obtain ⟨i, hi, rfl⟩ := List.getElem_of_mem hc
  exact ⟨i, hi, by rw [List.getD_eq_getElem _ _ hi]; exact hx⟩

theorem find?_holds {p : α → Bool} {l : List α} {a : α} (h : l.find? p = some a) :
    p a = true :=
  List.find?_some h

end Lists

/-! ## Lookup in a well-formed table -/

section Find
variable (P : Params K)

theorem wf_init : wf P (ht_init : ht_type K V) := by
  simp [wf, ht_init, bins, items]

theorem bins_length {t : ht_type K V} (hw : wf P t) : (bins t).length = t.binCount :=
  hw.2.1

theorem itemCount_eq {t : ht_type K V} (hw : wf P t) : t.itemCount = (items t).length :=
  hw.2.2.1

theorem hash_of_mem_bucket {t : ht_type K V} (hw : wf P t) {i : Nat} {item : ht_item K V}
    (h : item ∈ (bins t).getD i []) : P.hash_func item.key % t.binCount = i := by
  have hi := lt_of_mem_getD _ _ _ h
  rw [bins_length P hw] at hi
  exact hw.2.2.2.1 i hi item h

theorem pred_symmetric (hL : Lawful P) :
    Symmetric (fun a b : ht_item K V => P.pred_func a.key b.key = false) := by
  intro a b hab
  cases hba : P.pred_func b.key a.key
  · rfl
  · rw [hL.symm _ _ hba] at hab
    exact absurd hab (by simp)

theorem ht_find_mem {t : ht_type K V} {key : K} {item : ht_item K V}
    (h : ht_find P t key = some item) :
    item ∈ items t ∧ P.pred_func key item.key = true := by
  unfold ht_find at h
  split at h
  · have hp := find?_holds h
    exact ⟨mem_flatten_of_mem_getD _ _ _ (List.mem_of_find?_eq_some h), hp⟩
  · exact absurd h (by simp)

theorem ht_find_of_mem (hL : Lawful P) {t : ht_type K V} (hw : wf P t) {key : K}
    {item : ht_item K V} (hm : item ∈ items t) (hp : P.pred_func key item.key = true) :
    ht_find P t key = some item := by
  obtain ⟨i, hi, hmi⟩ := exists_getD_of_mem_flatten _ _ hm
  have hpl := hash_of_mem_bucket P hw hmi
  rw [← hL.hash_eq _ _ hp] at hpl
  have hic : 0 < t.itemCount := by
    rw [itemCount_eq P hw]; exact List.length_pos_of_mem hm
  have hbc : 0 < t.binCount := by
    rw [← bins_length P hw]; omega
  unfold ht_find
  rw [if_pos ⟨hic, hbc⟩, hpl]
  cases hf : ((bins t).getD i []).find? (fun item => P.pred_func key item.key) with
  | none =>
    have := List.find?_eq_none.1 hf item hmi
    exact absurd hp this
  | some item' =>
    have hm' : item' ∈ items t := mem_flatten_of_mem_getD _ _ _ (List.mem_of_find?_eq_some hf)
    have hp' := find?_holds hf
    simp only at hp'
    by_contra hne
    have hne' : item' ≠ item := fun e => hne (by rw [e])
    have := List.Pairwise.forall (pred_symmetric P hL) hw.2.2.2.2 hm' hm hne'
    rw [hL.trans _ _ _ (hL.symm _ _ hp') hp] at this
    exact absurd this (by simp)

theorem ht_find_eq_none_iff (hL : Lawful P) {t : ht_type K V} (hw : wf P t) (key : K) :
    ht_find P t key = none ↔ ∀ item ∈ items t, P.pred_func key item.key = false := by
  constructor
  · intro h item hm
    cases hp : P.pred_func key item.key
    · rfl
    · rw [ht_find_of_mem P hL hw hm hp] at h
      exact absurd h (by simp)
  · intro h
    cases hf : ht_find P t key with
    | none => rfl
    | some item =>
      have := ht_find_mem P hf
      rw [h item this.1] at this
      exact absurd this.2 (by simp)

/-- Lookup in a well-formed table depends only on which items the table holds. -/
theorem ht_find_congr (hL : Lawful P) {t t' : ht_type K V} (hw : wf P t) (hw' : wf P t')
    (hmem : ∀ item, item ∈ items t' ↔ item ∈ items t) (key : K) :
    ht_find P t' key = ht_find P t key := by
  cases hf : ht_find P t key with
  | none =>
    rw [ht_find_eq_none_iff P hL hw] at hf
    rw [ht_find_eq_none_iff P hL hw']
    intro item hm
    exact hf item ((hmem item).1 hm)
  | some item =>
    have := ht_find_mem P hf
    exact ht_find_of_mem P hL hw' ((hmem item).2 this.1) this.2

end Find

/-! ## Rehash -/

section Rehash
variable (P : Params K)

theorem min_le_aimBinCount (t : ht_type K V) : P.min_bin_size_val ≤ aimBinCount P t := by
  unfold aimBinCount
  split <;> omega

theorem relinkAll_eq {t : ht_type K V} (hlen : (bins t).length = t.binCount) (n : Nat)
    (newBinVec : List (ht_bin K V)) :
    relinkAll P n t newBinVec = (items t).foldl (relink P n) newBinVec := by
  unfold relinkAll items
  rw [← hlen, foldl_range_getD (fun acc c => List.foldl (relink P n) acc c),
    List.foldl_flatten]

theorem relink_length (n : Nat) (acc : List (ht_bin K V)) (item : ht_item K V) :
    (relink P n acc item).length = acc.length := by
  simp [relink]

theorem relink_perm (n : Nat) (acc : List (ht_bin K V)) (item : ht_item K V)
    (hn : 0 < n) (hlen : acc.length = n) :
    (relink P n acc item).flatten.Perm (item :: acc.flatten) := by
  have hj : P.hash_func item.key % n < acc.length := by
    rw [hlen]; exact Nat.mod_lt _ hn
  unfold relink
  refine (flatten_set_perm acc _ _ hj).trans ?_
  rw [List.cons_append]
  exact List.Perm.cons _ (flatten_perm_getD acc _ hj).symm

theorem relink_placed (n : Nat) (acc : List (ht_bin K V)) (item : ht_item K V)
    (hn : 0 < n) (hlen : acc.length = n)
    (hpl : ∀ i, ∀ x ∈ acc.getD i [], P.hash_func x.key % n = i) :
    ∀ i, ∀ x ∈ (relink P n acc item).getD i [], P.hash_func x.key % n = i := by
  have hj : P.hash_func item.key % n < acc.length := by
    rw [hlen]; exact Nat.mod_lt _ hn
  intro i x hx
  unfold relink at hx
  rw [getD_set _ _ _ _ hj] at hx
  split at hx
  · rename_i e
    rcases List.mem_cons.1 hx with h | h
    · rw [h]; exact e
    · rw [e] at h; exact hpl i x h
  · exact hpl i x hx

theorem foldl_relink (n : Nat) (hn : 0 < n) (l : List (ht_item K V)) :
    ∀ acc : List (ht_bin K V), acc.length = n →
      (∀ i, ∀ x ∈ acc.getD i [], P.hash_func x.key % n = i) →
      (l.foldl (relink P n) acc).length = n ∧
      (l.foldl (relink P n) acc).flatten.Perm (l ++ acc.flatten) ∧
      (∀ i, ∀ x ∈ (l.foldl (relink P n) acc).getD i [], P.hash_func x.key % n = i) := by
  induction l with
  | nil => intro acc hlen hpl; exact ⟨hlen, List.Perm.refl _, hpl⟩
  | cons item rest ih =>
    intro acc hlen hpl
    have h1 : (relink P n acc item).length = n := by rw [relink_length, hlen]
    obtain ⟨a, b, c⟩ := ih (relink P n acc item) h1 (relink_placed P n acc item hn hlen hpl)
    refine ⟨a, ?_, c⟩
    rw [List.foldl_cons]
    refine b.trans ?_
    refine (List.Perm.append_left rest (relink_perm P n acc item hn hlen)).trans ?_
    rw [List.cons_append]
    exact List.perm_middle

theorem flatten_replicate_nil (n : Nat) :
    (List.replicate n ([] : ht_bin K V)).flatten = [] := by
  induction n with
  | zero => rfl
  | succ n ih => rw [List.replicate_succ, List.flatten_cons, ih]; rfl

theorem getD_replicate_nil (n i : Nat) :
    (List.replicate n ([] : ht_bin K V)).getD i [] = [] := by
  simp only [List.getD_eq_getElem?_getD, List.getElem?_replicate]
  split <;> rfl

/-- The bucket array that a successful, effective `ht_rehash` builds. -/
theorem rehash_bins_spec {t : ht_type K V} (hw : wf P t) (n : Nat) (hn : 0 < n) :
    let bv := if 0 < t.itemCount then relinkAll P n t (List.replicate n [])
              else List.replicate n []
    bv.length = n ∧ bv.flatten.Perm (items t) ∧
      (∀ i, ∀ x ∈ bv.getD i [], P.hash_func x.key % n = i) := by
  intro bv
  by_cases hic : 0 < t.itemCount
  · have e : bv = (items t).foldl (relink P n) (List.replicate n []) := by
      simp only [bv, if_pos hic]
      exact relinkAll_eq P (bins_length P hw) n _
    rw [e]
    obtain ⟨a, b, c⟩ := foldl_relink P n hn (items t) (List.replicate n [])
      (List.length_replicate _ _) (by
        intro i x hx
        rw [getD_replicate_nil] at hx
        exact absurd hx (List.not_mem_nil _))
    refine ⟨a, ?_, c⟩
    rw [flatten_replicate_nil, List.append_nil] at b
    exact b
  · have e : bv = List.replicate n [] := by simp only [bv, if_neg hic]
    have hnil : items t = [] := by
      apply List.eq_nil_of_length_eq_zero
      rw [← itemCount_eq P hw]; omega
    rw [e, hnil, flatten_replicate_nil]
    refine ⟨List.length_replicate _ _, List.Perm.refl _, ?_⟩
    intro i x hx
    rw [getD_replicate_nil] at hx
    exact absurd hx (List.not_mem_nil _)

theorem items_rehash (hL : Lawful P) {t : ht_type K V} (hw : wf P t) (mb : Bool) :
    (items (ht_rehash P t mb)).Perm (items t) := by
  unfold ht_rehash
  split
  · split
    · exact (rehash_bins_spec P hw (aimBinCount P t)
        (Nat.lt_of_lt_of_le hL.min_pos (min_le_aimBinCount P t))).2.1
    · exact List.Perm.refl _
  · exact List.Perm.refl _

theorem itemCount_rehash (t : ht_type K V) (mb : Bool) :
    (ht_rehash P t mb).itemCount = t.itemCount := by
  unfold ht_rehash
  split
  · split <;> rfl
  · rfl

theorem wf_rehash (hL : Lawful P) {t : ht_type K V} (hw : wf P t) (mb : Bool) :
    wf P (ht_rehash P t mb) := by
  have hn : 0 < aimBinCount P t := Nat.lt_of_lt_of_le hL.min_pos (min_le_aimBinCount P t)
  unfold ht_rehash
  split
  · split
    · obtain ⟨a, b, c⟩ := rehash_bins_spec P hw (aimBinCount P t) hn
      refine ⟨?_, a, ?_, ?_, ?_⟩
      · simp [hn]
      · exact (itemCount_eq P hw).trans b.length_eq.symm
      · intro i _ x hx
        exact c i x hx
      · exact hw.2.2.2.2.perm b.symm (fun h => pred_symmetric P hL h)
    · exact hw
  · exact hw

theorem ht_find_rehash (hL : Lawful P) {t : ht_type K V} (hw : wf P t) (mb : Bool)
    (key : K) : ht_find P (ht_rehash P t mb) key = ht_find P t key :=
  ht_find_congr P hL hw (wf_rehash P hL hw mb)
    (fun _ => (items_rehash P hL hw mb).mem_iff) key

end Rehash

/-! ## Insert -/

section Insert
variable (P : Params K)

theorem lazyAlloc_of_isSome {t : ht_type K V} (h : t.binVec.isSome = true) (mb : Bool) :
    lazyAlloc P t mb = some t := by
  unfold lazyAlloc
  split
  · rfl
  · rename_i e
    rw [e] at h
    exact absurd h (by simp)

theorem lazyAlloc_none {t : ht_type K V} (h : t.binVec = none) :
    lazyAlloc P t false = none ∧ lazyAlloc P t true = some (freshBins P) := by
  unfold lazyAlloc
  rw [h]
  exact ⟨rfl, rfl⟩

theorem items_freshBins : items (freshBins P : ht_type K V) = [] :=
  flatten_replicate_nil _

/-- The table that the lazy allocation of `ht_insert` creates is well formed. -/
theorem wf_freshBins (hmin : 0 < P.min_bin_size_val) : wf P (freshBins P : ht_type K V) := by
  refine ⟨?_, ?_, ?_, ?_, ?_⟩
  · simp [freshBins, hmin]
  · simp [bins, freshBins]
  · rw [items_freshBins]; rfl
  · intro i _ item hx
    simp only [bins, freshBins, Option.getD_some] at hx
    rw [getD_replicate_nil] at hx
    exact absurd hx (List.not_mem_nil _)
  · rw [items_freshBins]; exact List.Pairwise.nil

/-- After the lazy allocation step the bucket array is present, and a second lazy
allocation does nothing. -/
theorem lazyAlloc_isSome {t t1 : ht_type K V} {mb : Bool} (h : lazyAlloc P t mb = some t1) :
    t1.binVec.isSome = true := by
  unfold lazyAlloc at h
  split at h
  · rename_i bv e
    have : t1 = t := by simpa using h.symm
    rw [this, e]; rfl
  · split at h
    · have : t1 = _ := (Option.some.inj h).symm
      rw [this]; rfl
    · exact absurd h (by simp)

theorem ht_insert_lazy {t t1 : ht_type K V} {mb : Bool} (h : lazyAlloc P t mb = some t1)
    (key : K) (value : V) (mb' : Bool) (mi : Option Nat) (mr : Bool) :
    ht_insert P t key value mb mi mr = ht_insert P t1 key value mb' mi mr := by
  unfold ht_insert
  rw [h, lazyAlloc_of_isSome P (lazyAlloc_isSome P h)]

theorem ht_insert_scan_some {t : ht_type K V} (hs : t.binVec.isSome = true) {key : K}
    {item : ht_item K V}
    (hscan : ((bins t).getD (P.hash_func key % t.binCount) []).find?
      (fun itemPtr => P.pred_func itemPtr.key key) = some item)
    (value : V) (mb : Bool) (mi : Option Nat) (mr : Bool) :
    ht_insert P t key value mb mi mr = (some item, t) := by
  unfold ht_insert
  rw [lazyAlloc_of_isSome P hs]
  simp only [hscan]

theorem ht_insert_scan_none {t : ht_type K V} (hs : t.binVec.isSome = true) {key : K}
    (hscan : ((bins t).getD (P.hash_func key % t.binCount) []).find?
      (fun itemPtr => P.pred_func itemPtr.key key) = none)
    (value : V) (mb : Bool) (mr : Bool) :
    ht_insert P t key value mb none mr = (none, t) ∧
    ∀ a, ht_insert P t key value mb (some a) mr =
      if (linkItem P t ⟨key, value, a⟩).itemCount / (linkItem P t ⟨key, value, a⟩).binCount
          > P.max_ldfac_val then
        (some ⟨key, value, a⟩, ht_rehash P (linkItem P t ⟨key, value, a⟩) mr)
      else (some ⟨key, value, a⟩, linkItem P t ⟨key, value, a⟩) := by
  unfold ht_insert
  rw [lazyAlloc_of_isSome P hs]
  simp only [hscan]
  exact ⟨trivial, fun _ => trivial⟩

/-- The chain scan of `ht_insert` and the chain scan of `ht_find` agree when the
predicate is symmetric. -/
theorem scan_eq (hsymm : ∀ a b, P.pred_func a b = true → P.pred_func b a = true) (key : K) :
    (fun itemPtr : ht_item K V => P.pred_func itemPtr.key key) =
      (fun item : ht_item K V => P.pred_func key item.key) := by
  funext item
  cases h1 : P.pred_func item.key key
  · cases h2 : P.pred_func key item.key
    · rfl
    · rw [hsymm _ _ h2] at h1
      exact absurd h1 (by simp)
  · exact (hsymm _ _ h1).symm

/-- Inserting a key that `ht_find` finds returns the found item and changes nothing. -/
theorem ht_insert_found (hsymm : ∀ a b, P.pred_func a b = true → P.pred_func b a = true)
    {t : ht_type K V} {key : K} {item : ht_item K V} (hf : ht_find P t key = some item)
    (value : V) (mb : Bool) (mi : Option Nat) (mr : Bool) :
    ht_insert P t key value mb mi mr = (some item, t) := by
  unfold ht_find at hf
  split at hf
  · have hs : t.binVec.isSome = true := by
      cases e : t.binVec with
      | some bv => rfl
      | none =>
        simp only [bins, e, Option.getD_none, List.getD_eq_getElem?_getD,
          List.getElem?_nil, Option.getD_none, List.find?_nil] at hf
        exact absurd hf (by simp)
    unfold ht_insert
    rw [lazyAlloc_of_isSome P hs]
    simp only [scan_eq P hsymm, hf]
  · exact absurd hf (by simp)

/-- Linking a new node for a key that no item of the table is considered the same
as. -/
theorem link_spec (hL : Lawful P) {t : ht_type K V} (hw : wf P t) (hbc : 0 < t.binCount)
    (item : ht_item K V)
    (hfresh : ∀ x ∈ items t, P.pred_func item.key x.key = false) :
    wf P (linkItem P t item) ∧ (items (linkItem P t item)).Perm (item :: items t) := by
  have hi : P.hash_func item.key % t.binCount < (bins t).length := by
    rw [bins_length P hw]; exact Nat.mod_lt _ hbc
  have hperm : (items (linkItem P t item)).Perm (item :: items t) := by
    show ((bins t).set _ ((bins t).getD _ [] ++ [item])).flatten.Perm _
    refine (flatten_set_perm _ _ _ hi).trans ?_
    refine List.Perm.trans ?_ (List.Perm.cons _ (flatten_perm_getD (bins t) _ hi).symm)
    rw [List.append_assoc, List.singleton_append]
    exact List.perm_middle
  refine ⟨⟨?_, ?_, ?_, ?_, ?_⟩, hperm⟩
  · simp [linkItem, hbc]
  · show ((bins t).set _ _).length = t.binCount
    rw [List.length_set, bins_length P hw]
  · show t.itemCount + 1 = (items (linkItem P t item)).length
    rw [hperm.length_eq, List.length_cons, itemCount_eq P hw]
  · intro j _ x hx
    have hx' : x ∈ ((bins t).set (P.hash_func item.key % t.binCount)
        ((bins t).getD (P.hash_func item.key % t.binCount) [] ++ [item])).getD j [] := hx
    rw [getD_set _ _ _ _ hi] at hx'
    show P.hash_func x.key % t.binCount = j
    split at hx'
    · rename_i e
      rcases List.mem_append.1 hx' with h | h
      · rw [← e]; exact hash_of_mem_bucket P hw h
      · rw [List.mem_singleton.1 h, ← e]
    · exact hash_of_mem_bucket P hw hx'
  · refine List.Pairwise.perm ?_ hperm.symm (fun h => pred_symmetric P hL h)
    exact List.pairwise_cons.2 ⟨fun x hx => hfresh x hx, hw.2.2.2.2⟩

/-- Inserting, into a table whose bucket array is present, a key that `ht_find` does
not find, when the node allocation succeeds. -/
theorem ht_insert_fresh_alloc (hL : Lawful P) {t : ht_type K V} (hw : wf P t)
    (hs : t.binVec.isSome = true) {key : K} (hf : ht_find P t key = none)
    (value : V) (mb : Bool) (a : Nat) (mr : Bool) :
    (ht_insert P t key value mb (some a) mr).1 = some ⟨key, value, a⟩ ∧
    wf P (ht_insert P t key value mb (some a) mr).2 ∧
    (items (ht_insert P t key value mb (some a) mr).2).Perm (⟨key, value, a⟩ :: items t) ∧
    (ht_insert P t key value mb (some a) mr).2.itemCount = t.itemCount + 1 := by
  have hfresh := (ht_find_eq_none_iff P hL hw key).1 hf
  have hbc : 0 < t.binCount := hw.1.1 hs
  have hscan : ((bins t).getD (P.hash_func key % t.binCount) []).find?
      (fun itemPtr => P.pred_func itemPtr.key key) = none := by
    rw [scan_eq P hL.symm, List.find?_eq_none]
    intro x hx
    rw [hfresh x (mem_flatten_of_mem_getD _ _ _ hx)]
    simp
  obtain ⟨hw2, hp2⟩ := link_spec P hL hw hbc ⟨key, value, a⟩ hfresh
  unfold ht_insert
  rw [lazyAlloc_of_isSome P hs]
  simp only [hscan]
  split
  · refine ⟨rfl, wf_rehash P hL hw2 mr, (items_rehash P hL hw2 mr).trans hp2, ?_⟩
    rw [itemCount_rehash]; rfl
  · exact ⟨rfl, hw2, hp2, rfl⟩

/-- Inserting a key that `ht_find` does not find into any well-formed table, when the
bucket-array and node allocations succeed. -/
theorem ht_insert_fresh (hL : Lawful P) {t : ht_type K V} (hw : wf P t)
    {key : K} (hf : ht_find P t key = none) (value : V) (a : Nat) (mr : Bool) :
    (ht_insert P t key value true (some a) mr).1 = some ⟨key, value, a⟩ ∧
    wf P (ht_insert P t key value true (some a) mr).2 ∧
    (items (ht_insert P t key value true (some a) mr).2).Perm (⟨key, value, a⟩ :: items t) ∧
    (ht_insert P t key value true (some a) mr).2.itemCount = t.itemCount + 1 := by
  cases e : t.binVec with
  | some bv =>
    exact ht_insert_fresh_alloc P hL hw (by rw [e]; rfl) hf value true a mr
  | none =>
    have h1 := (lazyAlloc_none P e).2
    have hw1 := wf_freshBins (V := V) P hL.min_pos
    have hit : items t = [] := by simp [items, bins, e]
    have hic : t.itemCount = 0 := by rw [itemCount_eq P hw, hit]; rfl
    rw [ht_insert_lazy P h1 key value true (some a) mr, hit, hic]
    have hf1 : ht_find P (freshBins P : ht_type K V) key = none := by
      simp [ht_find, freshBins]
    have := ht_insert_fresh_alloc P hL hw1 rfl hf1 value true a mr
    rw [items_freshBins] at this
    exact this

end Insert

/-! ## Erase -/

section Erase
variable (P : Params K)

theorem eraseChain_none (key : K) (c : ht_bin K V) :
    eraseChain P key c = none ↔ c.find? (fun item => P.pred_func key item.key) = none := by
  induction c with
  | nil => simp [eraseChain]
  | cons x rest ih =>
    unfold eraseChain
    by_cases hp : P.pred_func key x.key = true
    · simp [hp]
    · simp only [hp, Bool.false_eq_true, if_false, Option.map_eq_none', List.find?_cons]
      exact ih

theorem eraseChain_some (key : K) (c c' : ht_bin K V) (h : eraseChain P key c = some c') :
    ∃ item, c.find? (fun item => P.pred_func key item.key) = some item ∧
      c.Perm (item :: c') := by
  induction c generalizing c' with
  | nil => simp [eraseChain] at h
  | cons x rest ih =>
    unfold eraseChain at h
    by_cases hp : P.pred_func key x.key = true
    · rw [if_pos hp] at h
      have e : rest = c' := Option.some.inj h
      exact ⟨x, by simp [hp], by rw [e]⟩
    · rw [if_neg hp] at h
      cases hr : eraseChain P key rest with
      | none => rw [hr] at h; exact absurd h (by simp)
      | some r =>
        rw [hr] at h
        have e : x :: r = c' := Option.some.inj h
        obtain ⟨item, hf, hperm⟩ := ih r hr
        refine ⟨item, by simp [hp, hf], ?_⟩
        rw [← e]
        exact (List.Perm.cons x hperm).trans (List.Perm.swap _ _ _)

theorem ht_erase_chain_some {t : ht_type K V} (hg : 0 < t.itemCount ∧ 0 < t.binCount)
    {key : K} {chain : ht_bin K V}
    (he : eraseChain P key ((bins t).getD (P.hash_func key % t.binCount) []) = some chain)
    (mr : Bool) :
    ht_erase P t key mr =
      if 0 < (unlinkItem P t key chain).itemCount ∧
          (unlinkItem P t key chain).binCount / (unlinkItem P t key chain).itemCount
            > P.min_inv_ldfac_val then
        (1, ht_rehash P (unlinkItem P t key chain) mr)
      else (1, unlinkItem P t key chain) := by
  unfold ht_erase
  rw [if_pos hg]
  simp only [he]

theorem ht_erase_chain_none {t : ht_type K V} {key : K}
    (he : eraseChain P key ((bins t).getD (P.hash_func key % t.binCount) []) = none)
    (mr : Bool) : ht_erase P t key mr = (0, t) := by
  unfold ht_erase
  split
  · simp only [he]
  · rfl

theorem ht_erase_guard {t : ht_type K V} (hg : ¬(0 < t.itemCount ∧ 0 < t.binCount))
    (key : K) (mr : Bool) : ht_erase P t key mr = (0, t) := by
  unfold ht_erase
  rw [if_neg hg]

/-- Erasing a key that `ht_find` does not find returns 0 and changes nothing. -/
theorem ht_erase_not_found {t : ht_type K V} {key : K} (hf : ht_find P t key = none)
    (mr : Bool) : ht_erase P t key mr = (0, t) := by
  unfold ht_erase
  unfold ht_find at hf
  split
  · rename_i hg
    rw [if_pos hg] at hf
    rw [(eraseChain_none P key _).2 hf]
  · rfl

/-- Unlinking the first matching node of the bucket of `key`. -/
theorem unlink_spec (hL : Lawful P) {t : ht_type K V} (hw : wf P t) (hbc : 0 < t.binCount)
    (key : K) (item : ht_item K V) (chain : ht_bin K V)
    (hperm : ((bins t).getD (P.hash_func key % t.binCount) []).Perm (item :: chain)) :
    wf P (unlinkItem P t key chain) ∧
      (items t).Perm (item :: items (unlinkItem P t key chain)) := by
  have hi : P.hash_func key % t.binCount < (bins t).length := by
    rw [bins_length P hw]; exact Nat.mod_lt _ hbc
  have hp : (items t).Perm (item :: items (unlinkItem P t key chain)) := by
    show (bins t).flatten.Perm (item :: ((bins t).set _ chain).flatten)
    refine (flatten_perm_getD _ _ hi).trans ?_
    refine List.Perm.trans ?_ (List.Perm.cons _ (flatten_set_perm _ _ _ hi).symm)
    rw [← List.cons_append]
    exact List.Perm.append_right _ hperm
  have hpw := hw.2.2.2.2.perm hp (fun h => pred_symmetric P hL h)
  refine ⟨⟨?_, ?_, ?_, ?_, ?_⟩, hp⟩
  · simp [unlinkItem, hbc]
  · show ((bins t).set _ _).length = t.binCount
    rw [List.length_set, bins_length P hw]
  · show t.itemCount - 1 = (items (unlinkItem P t key chain)).length
    rw [itemCount_eq P hw, hp.length_eq, List.length_cons]
    omega
  · intro j _ x hx
    have hx' : x ∈ ((bins t).set (P.hash_func key % t.binCount) chain).getD j [] := hx
    rw [getD_set _ _ _ _ hi] at hx'
    show P.hash_func x.key % t.binCount = j
    split at hx'
    · rename_i e
      rw [← e]
      exact hash_of_mem_bucket P hw (hperm.mem_iff.2 (List.mem_cons_of_mem _ hx'))
    · exact hash_of_mem_bucket P hw hx'
  · exact (List.pairwise_cons.1 hpw).2

/-- Erasing a key that `ht_find` finds in a well-formed table: exactly the found item
leaves the table. -/
theorem ht_erase_found (hL : Lawful P) {t : ht_type K V} (hw : wf P t) {key : K}
    {item : ht_item K V} (hf : ht_find P t key = some item) (mr : Bool) :
    (ht_erase P t key mr).1 = 1 ∧ wf P (ht_erase P t key mr).2 ∧
      (items t).Perm (item :: items (ht_erase P t key mr).2) ∧
      (ht_erase P t key mr).2.itemCount + 1 = t.itemCount := by
  unfold ht_find at hf
  unfold ht_erase
  split
  · rename_i hg
    rw [if_pos hg] at hf
    cases he : eraseChain P key ((bins t).getD (P.hash_func key % t.binCount) []) with
    | none =>
      rw [(eraseChain_none P key _).1 he] at hf
      exact absurd hf (by simp)
    | some chain =>
      obtain ⟨item', hf', hperm⟩ := eraseChain_some P key _ _ he
      rw [hf] at hf'
      have e : item = item' := Option.some.inj hf'
      rw [← e] at hperm
      obtain ⟨hw1, hp1⟩ := unlink_spec P hL hw hg.2 key item chain hperm
      have hc : (unlinkItem P t key chain).itemCount + 1 = t.itemCount := by
        show t.itemCount - 1 + 1 = t.itemCount
        omega
      simp only
      split
      · refine ⟨rfl, wf_rehash P hL hw1 mr, ?_, ?_⟩
        · exact hp1.trans (List.Perm.cons _ (items_rehash P hL hw1 mr).symm)
        · rw [itemCount_rehash]; exact hc
      · exact ⟨rfl, hw1, hp1, hc⟩
  · rename_i hg
    rw [if_neg hg] at hf
    exact absurd hf (by simp)

/-- After erasing a found key, the key is no longer found. -/
theorem ht_find_erase_self (hL : Lawful P) {t : ht_type K V} (hw : wf P t) {key : K}
    {item : ht_item K V} (hf : ht_find P t key = some item) (mr : Bool) :
    ht_find P (ht_erase P t key mr).2 key = none := by
  obtain ⟨_, hw1, hp1, _⟩ := ht_erase_found P hL hw hf mr
  have hpw := hw.2.2.2.2.perm hp1 (fun h => pred_symmetric P hL h)
  have hk := (ht_find_mem P hf).2
  rw [ht_find_eq_none_iff P hL hw1]
  intro x hx
  cases hp : P.pred_func key x.key
  · rfl
  · have := (List.pairwise_cons.1 hpw).1 x hx
    rw [hL.trans _ _ _ (hL.symm _ _ hk) hp] at this
    exact absurd this (by simp)

/-- After erasing a found key, every key that is not considered the same is looked up
as before. -/
theorem ht_find_erase_other (hL : Lawful P) {t : ht_type K V} (hw : wf P t) {key : K}
    {item : ht_item K V} (hf : ht_find P t key = some item) (mr : Bool) (key' : K)
    (hne : P.pred_func key' key = false) :
    ht_find P (ht_erase P t key mr).2 key' = ht_find P t key' := by
  obtain ⟨_, hw1, hp1, _⟩ := ht_erase_found P hL hw hf mr
  have hk := (ht_find_mem P hf).2
  cases hf' : ht_find P t key' with
  | none =>
    rw [ht_find_eq_none_iff P hL hw] at hf'
    rw [ht_find_eq_none_iff P hL hw1]
    intro x hx
    exact hf' x (hp1.mem_iff.2 (List.mem_cons_of_mem _ hx))
  | some x =>
    obtain ⟨hm, hp⟩ := ht_find_mem P hf'
    rcases List.mem_cons.1 (hp1.mem_iff.1 hm) with h | h
    · rw [h] at hp
      rw [hL.trans _ _ _ hp (hL.symm _ _ hk)] at hne
      exact absurd hne (by simp)
    · exact ht_find_of_mem P hL hw1 h hp

end Erase

/-! ## Sequences of calls -/

section Run
variable (P : Params K)

/-- Looking up keys that are considered the same gives the same result. -/
theorem ht_find_pred (hL : Lawful P) {t : ht_type K V} (hw : wf P t) {key key' : K}
    (hp : P.pred_func key' key = true) : ht_find P t key' = ht_find P t key := by
  cases hf : ht_find P t key with
  | none =>
    rw [ht_find_eq_none_iff P hL hw] at hf
    rw [ht_find_eq_none_iff P hL hw]
    intro x hx
    cases hx' : P.pred_func key' x.key
    · rfl
    · have := hf x hx
      rw [hL.trans _ _ _ (hL.symm _ _ hp) hx'] at this
      exact absurd this (by simp)
  | some item =>
    obtain ⟨hm, hk⟩ := ht_find_mem P hf
    exact ht_find_of_mem P hL hw hm (hL.trans _ _ _ hp hk)

/-- Inserting a key that is not found, when the node allocation fails: the table with
its bucket array present is returned as it is. -/
theorem ht_insert_fresh_nomem (hL : Lawful P) {t : ht_type K V} (hw : wf P t)
    (hs : t.binVec.isSome = true) {key : K} (hf : ht_find P t key = none)
    (value : V) (mb mr : Bool) :
    ht_insert P t key value mb none mr = (none, t) := by
  have hfresh := (ht_find_eq_none_iff P hL hw key).1 hf
  have hscan : ((bins t).getD (P.hash_func key % t.binCount) []).find?
      (fun itemPtr => P.pred_func itemPtr.key key) = none := by
    rw [scan_eq P hL.symm, List.find?_eq_none]
    intro x hx
    rw [hfresh x (mem_flatten_of_mem_getD _ _ _ hx)]
    simp
  unfold ht_insert
  rw [lazyAlloc_of_isSome P hs]
  simp only [hscan]

/-- The table after `ht_insert` is well formed, whatever the allocator answers. -/
theorem wf_insert_alloc (hL : Lawful P) {t : ht_type K V} (hw : wf P t)
    (hs : t.binVec.isSome = true) (key : K) (value : V) (mb : Bool) (mi : Option Nat)
    (mr : Bool) : wf P (ht_insert P t key value mb mi mr).2 := by
  cases hf : ht_find P t key with
  | some item => rw [ht_insert_found P hL.symm hf]; exact hw
  | none =>
    cases mi with
    | none => rw [ht_insert_fresh_nomem P hL hw hs hf]; exact hw
    | some a => exact (ht_insert_fresh_alloc P hL hw hs hf value mb a mr).2.1

theorem wf_insert (hL : Lawful P) {t : ht_type K V} (hw : wf P t) (key : K) (value : V)
    (mb : Bool) (mi : Option Nat) (mr : Bool) :
    wf P (ht_insert P t key value mb mi mr).2 := by
  cases e : t.binVec with
  | some bv => exact wf_insert_alloc P hL hw (by rw [e]; rfl) key value mb mi mr
  | none =>
    cases mb with
    | false =>
      unfold ht_insert
      rw [(lazyAlloc_none P e).1]
      exact hw
    | true =>
      rw [ht_insert_lazy P (lazyAlloc_none P e).2 key value true mi mr]
      exact wf_insert_alloc P hL (wf_freshBins P hL.min_pos) rfl key value true mi mr

theorem wf_erase (hL : Lawful P) {t : ht_type K V} (hw : wf P t) (key : K) (mr : Bool) :
    wf P (ht_erase P t key mr).2 := by
  cases hf : ht_find P t key with
  | some item => exact (ht_erase_found P hL hw hf mr).2.1
  | none => rw [ht_erase_not_found P hf]; exact hw

theorem wf_step (hL : Lawful P) {t : ht_type K V} (hw : wf P t) (op : Op K V) :
    wf P (step P t op) := by
  cases op with
  | insert key value mb mi mr => exact wf_insert P hL hw key value mb mi mr
  | erase key mr => exact wf_erase P hL hw key mr
  | find key => exact hw
  | rehash mb => exact wf_rehash P hL hw mb
  | clear => exact wf_init P

theorem wf_run (hL : Lawful P) (ops : List (Op K V)) :
    ∀ t : ht_type K V, wf P t → wf P (run P t ops) := by
  induction ops with
  | nil => intro t hw; exact hw
  | cons op rest ih => intro t hw; exact ih _ (wf_step P hL hw op)

theorem run_append (t : ht_type K V) (ops : List (Op K V)) (op : Op K V) :
    run P t (ops ++ [op]) = step P (run P t ops) op := by
  simp [run, List.foldl_append]

theorem ref_run_append (m : RefMap K V) (ops : List (Op K V)) (op : Op K V) :
    ref_run P m (ops ++ [op]) = ref_step P (ref_run P m ops) op := by
  simp [ref_run, List.foldl_append]

end Run

/-! ## The reference map -/

section Reference
variable (P : Params K)

theorem ref_symmetric (hL : Lawful P) :
    Symmetric (fun a b : K × V => P.pred_func a.1 b.1 = false) := by
  intro a b hab
  cases hba : P.pred_func b.1 a.1
  · rfl
  · rw [hL.symm _ _ hba] at hab
    exact absurd hab (by simp)

theorem ref_find_mem {m : RefMap K V} {key : K} {value : V}
    (h : ref_find P m key = some value) :
    ∃ p ∈ m, P.pred_func key p.1 = true ∧ p.2 = value := by
  unfold ref_find at h
  cases hf : m.find? (fun p => P.pred_func key p.1) with
  | none => rw [hf] at h; exact absurd h (by simp)
  | some p =>
    rw [hf] at h
    have hp := find?_holds hf
    exact ⟨p, List.mem_of_find?_eq_some hf, hp, Option.some.inj h⟩

theorem ref_find_of_mem (hL : Lawful P) {m : RefMap K V}
    (hu : m.Pairwise (fun a b => P.pred_func a.1 b.1 = false)) {key : K} {p : K × V}
    (hm : p ∈ m) (hp : P.pred_func key p.1 = true) : ref_find P m key = some p.2 := by
  unfold ref_find
  cases hf : m.find? (fun p => P.pred_func key p.1) with
  | none => exact absurd hp (List.find?_eq_none.1 hf p hm)
  | some q =>
    have hq := find?_holds hf
    simp only at hq
    have hqm := List.mem_of_find?_eq_some hf
    by_cases e : q = p
    · rw [e]; rfl
    · have := List.Pairwise.forall (ref_symmetric P hL) hu hqm hm e
      rw [hL.trans _ _ _ (hL.symm _ _ hq) hp] at this
      exact absurd this (by simp)

theorem ref_find_eq_none_iff {m : RefMap K V} (key : K) :
    ref_find P m key = none ↔ ∀ p ∈ m, P.pred_func key p.1 = false := by
  unfold ref_find
  rw [Option.map_eq_none', List.find?_eq_none]
  constructor
  · intro h p hp
    simpa using h p hp
  · intro h p hp
    simp [h p hp]

end Reference

/-! ## Refinement of the reference map -/

section Simulation
variable (P : Params K)

theorem sim_unique (hL : Lawful P) {t : ht_type K V} {m : RefMap K V} (h : Sim P t m) :
    m.Pairwise (fun a b => P.pred_func a.1 b.1 = false) := by
  refine List.Pairwise.perm ?_ h.2 (fun h => ref_symmetric P hL h)
  rw [List.pairwise_map]
  exact h.1.2.2.2.2

theorem sim_size {t : ht_type K V} {m : RefMap K V} (h : Sim P t m) :
    ht_size t = m.length := by
  unfold ht_size
  rw [itemCount_eq P h.1, ← h.2.length_eq, List.length_map]

theorem sim_find (hL : Lawful P) {t : ht_type K V} {m : RefMap K V} (h : Sim P t m)
    (key : K) : (ht_find P t key).map (fun item => item.value) = ref_find P m key := by
  cases hf : ht_find P t key with
  | none =>
    rw [ht_find_eq_none_iff P hL h.1] at hf
    symm
    rw [Option.map_none', ref_find_eq_none_iff]
    intro p hp
    obtain ⟨item, hm, e⟩ := List.mem_map.1 (h.2.mem_iff.2 hp)
    rw [← e]
    exact hf item hm
  | some item =>
    obtain ⟨hm, hp⟩ := ht_find_mem P hf
    have hm' : kv item ∈ m := h.2.mem_iff.1 (List.mem_map.2 ⟨item, hm, rfl⟩)
    rw [ref_find_of_mem P hL (sim_unique P hL h) hm' hp]
    rfl

theorem sim_insert (hL : Lawful P) {t : ht_type K V} {m : RefMap K V} (h : Sim P t m)
    (key : K) (value : V) (a : Nat) (mr : Bool) :
    Sim P (ht_insert P t key value true (some a) mr).2 (ref_insert P m key value) := by
  have hfind := sim_find P hL h key
  unfold ref_insert
  cases hf : ht_find P t key with
  | some item =>
    rw [hf] at hfind
    rw [ht_insert_found P hL.symm hf, ← hfind]
    exact h
  | none =>
    rw [hf] at hfind
    rw [← hfind]
    obtain ⟨_, hw', hp', _⟩ := ht_insert_fresh P hL h.1 hf value a mr
    refine ⟨hw', ?_⟩
    refine (hp'.map kv).trans ?_
    rw [List.map_cons]
    exact (List.Perm.cons _ h.2).trans (List.perm_append_singleton _ _).symm

theorem sim_erase (hL : Lawful P) {t : ht_type K V} {m : RefMap K V} (h : Sim P t m)
    (key : K) (mr : Bool) :
    Sim P (ht_erase P t key mr).2 (ref_erase P m key) := by
  have hfind := sim_find P hL h key
  unfold ref_erase
  cases hf : ht_find P t key with
  | none =>
    rw [hf] at hfind
    have hn := (ref_find_eq_none_iff P key).1 hfind.symm
    rw [ht_erase_not_found P hf, List.eraseP_of_forall_not (fun p hp => by simp [hn p hp])]
    exact h
  | some item =>
    obtain ⟨hm, hp⟩ := ht_find_mem P hf
    have hm' : kv item ∈ m := h.2.mem_iff.1 (List.mem_map.2 ⟨item, hm, rfl⟩)
    obtain ⟨_, hw', hp', _⟩ := ht_erase_found P hL h.1 hf mr
    obtain ⟨q, l₁, l₂, _, hq, hm2, he⟩ :=
      List.exists_of_eraseP (p := fun p : K × V => P.pred_func key p.1) hm' hp
    refine ⟨hw', ?_⟩
    rw [he]
    have hqm : q ∈ m := by rw [hm2]; simp
    have hqe : q = kv item := by
      by_contra hne
      have : P.pred_func q.1 item.key = false :=
        List.Pairwise.forall (ref_symmetric P hL) (sim_unique P hL h) hqm hm' hne
      have hq' : P.pred_func key q.1 = true := hq
      rw [hL.trans _ _ _ (hL.symm _ _ hq') hp] at this
      exact absurd this (by simp)
    have h1 : (kv item :: (items (ht_erase P t key mr).2).map kv).Perm
        (kv item :: (l₁ ++ l₂)) := by
      rw [← List.map_cons]
      refine ((hp'.map kv).symm.trans h.2).trans ?_
      rw [hm2, hqe]
      exact List.perm_middle
    exact h1.cons_inv

theorem sim_step (hL : Lawful P) {t : ht_type K V} {m : RefMap K V} (h : Sim P t m)
    (op : Op K V) (hok : op.allocOk = true) : Sim P (step P t op) (ref_step P m op) := by
  cases op with
  | insert key value mb mi mr =>
    simp only [Op.allocOk, Bool.and_eq_true] at hok
    obtain ⟨⟨hmb, hmi⟩, _⟩ := hok
    obtain ⟨a, ha⟩ := Option.isSome_iff_exists.1 hmi
    rw [hmb, ha]
    exact sim_insert P hL h key value a mr
  | erase key mr => exact sim_erase P hL h key mr
  | find key => exact h
  | rehash mb =>
    exact ⟨wf_rehash P hL h.1 mb, ((items_rehash P hL h.1 mb).map kv).trans h.2⟩
  | clear => exact ⟨wf_init P, List.Perm.refl _⟩

theorem sim_run (hL : Lawful P) (ops : List (Op K V)) :
    ∀ (t : ht_type K V) (m : RefMap K V), Sim P t m →
      (∀ op ∈ ops, op.allocOk = true) → Sim P (run P t ops) (ref_run P m ops) := by
  induction ops with
  | nil => intro t m h _; exact h
  | cons op rest ih =>
    intro t m h hok
    exact ih _ _ (sim_step P hL h op (hok op (List.mem_cons_self _ _)))
      (fun o ho => hok o (List.mem_cons_of_mem _ ho))

/-- With successful allocations `ht_insert` returns what `ht_find` finds afterwards
("return result of ht_find after insertion"). -/
theorem ht_insert_eq_find (hL : Lawful P) {t : ht_type K V} (hw : wf P t)
    (key : K) (value : V) (a : Nat) (mr : Bool) :
    (ht_insert P t key value true (some a) mr).1 =
      ht_find P (ht_insert P t key value true (some a) mr).2 key := by
  cases hf : ht_find P t key with
  | some item => rw [ht_insert_found P hL.symm hf]; exact hf.symm
  | none =>
    obtain ⟨h1, hw', hp', _⟩ := ht_insert_fresh P hL hw hf value a mr
    rw [h1]
    exact (ht_find_of_mem P hL hw' (hp'.mem_iff.2 (List.mem_cons_self _ _))
      (hL.refl key)).symm

end Simulation

/-! ## Load factors -/

section Load
variable (P : Params K)

theorem isDefault_DEFINE7 (hash_func : K → Nat) (pred_func : K → K → Bool) :
    IsDefault (HASH_TABLE_DEFINE7 hash_func pred_func) :=
  ⟨rfl, rfl, rfl, rfl⟩

/-- A successful `ht_rehash` always leaves the target bucket count. -/
theorem binCount_rehash_true (t : ht_type K V) :
    (ht_rehash P t true).binCount = aimBinCount P t := by
  unfold ht_rehash
  split
  · rfl
  · rename_i h
    exact (not_not.1 h).symm

theorem isSome_rehash {t : ht_type K V} (hs : t.binVec.isSome = true) (mb : Bool) :
    (ht_rehash P t mb).binVec.isSome = true := by
  unfold ht_rehash
  split
  · split
    · rfl
    · exact hs
  · exact hs

theorem aimBinCount_default (hd : IsDefault P) (t : ht_type K V) :
    aimBinCount P t = if t.itemCount / 2 < 32 then 32 else t.itemCount / 2 := by
  unfold aimBinCount
  rw [hd.1, hd.2.1]

theorem loadOk_rehash (hd : IsDefault P) (t : ht_type K V) :
    LoadOk P (ht_rehash P t true) := by
  refine ⟨fun _ => ?_, ?_⟩
  · rw [binCount_rehash_true]; exact min_le_aimBinCount P t
  · rw [binCount_rehash_true, itemCount_rehash, aimBinCount_default P hd, hd.2.2.1]
    apply Nat.div_le_of_le_mul
    split <;> omega

theorem loadOk_freshBins : LoadOk P (freshBins P : ht_type K V) := by
  refine ⟨fun _ => Nat.le_refl _, ?_⟩
  show 0 / P.min_bin_size_val ≤ P.max_ldfac_val
  rw [Nat.zero_div]
  exact Nat.zero_le _

/-- The second part of `ht_insert`, on a table whose bucket array is present. -/
theorem loadOk_insert_alloc (hd : IsDefault P) {t : ht_type K V} (h : LoadOk P t)
    (hs : t.binVec.isSome = true) (key : K) (value : V) (mb : Bool) (a : Nat) :
    LoadOk P (ht_insert P t key value mb (some a) true).2 ∧
      (ht_insert P t key value mb (some a) true).1.isSome = true ∧
      (ht_insert P t key value mb (some a) true).2.binVec.isSome = true := by
  cases hscan : ((bins t).getD (P.hash_func key % t.binCount) []).find?
      (fun itemPtr => P.pred_func itemPtr.key key) with
  | some item =>
    rw [ht_insert_scan_some P hs hscan]
    exact ⟨h, rfl, hs⟩
  | none =>
    rw [(ht_insert_scan_none P hs hscan value mb true).2 a]
    by_cases htr : (linkItem P t ⟨key, value, a⟩).itemCount /
        (linkItem P t ⟨key, value, a⟩).binCount > P.max_ldfac_val
    · rw [if_pos htr]
      exact ⟨loadOk_rehash P hd _, rfl,
        isSome_rehash P (t := linkItem P t ⟨key, value, a⟩) rfl true⟩
    · rw [if_neg htr]
      exact ⟨⟨fun _ => h.1 hs, Nat.le_of_not_lt htr⟩, rfl, rfl⟩

theorem loadOk_insert (hd : IsDefault P) {t : ht_type K V} (h : LoadOk P t)
    (key : K) (value : V) (a : Nat) :
    LoadOk P (ht_insert P t key value true (some a) true).2 ∧
      (ht_insert P t key value true (some a) true).1.isSome = true ∧
      (ht_insert P t key value true (some a) true).2.binVec.isSome = true := by
  cases e : t.binVec with
  | some bv => exact loadOk_insert_alloc P hd h (by rw [e]; rfl) key value true a
  | none =>
    rw [ht_insert_lazy P (lazyAlloc_none P e).2 key value true (some a) true]
    exact loadOk_insert_alloc P hd (loadOk_freshBins P) rfl key value true a

theorem isSome_of_eraseChain {t : ht_type K V} {key : K} {i : Nat} {chain : ht_bin K V}
    (h : eraseChain P key ((bins t).getD i []) = some chain) : t.binVec.isSome = true := by
  cases e : t.binVec with
  | some bv => rfl
  | none =>
    simp only [bins, e, Option.getD_none, List.getD_eq_getElem?_getD, List.getElem?_nil,
      eraseChain] at h
    exact absurd h (by simp)

theorem loadOk_erase (hd : IsDefault P) {t : ht_type K V} (h : LoadOk P t) (key : K) :
    LoadOk P (ht_erase P t key true).2 := by
  by_cases hg : 0 < t.itemCount ∧ 0 < t.binCount
  · cases he : eraseChain P key ((bins t).getD (P.hash_func key % t.binCount) []) with
    | none => rw [ht_erase_chain_none P he]; exact h
    | some chain =>
      rw [ht_erase_chain_some P hg he]
      split
      · exact loadOk_rehash P hd _
      · refine ⟨fun _ => h.1 (isSome_of_eraseChain P he), ?_⟩
        exact Nat.le_trans (Nat.div_le_div_right (Nat.sub_le _ _)) h.2
  · rw [ht_erase_guard P hg]; exact h

theorem loadOk_step (hd : IsDefault P) {t : ht_type K V} (h : LoadOk P t) (op : Op K V)
    (hok : op.allocOk = true) : LoadOk P (step P t op) := by
  cases op with
  | insert key value mb mi mr =>
    simp only [Op.allocOk, Bool.and_eq_true] at hok
    obtain ⟨⟨hmb, hmi⟩, hmr⟩ := hok
    obtain ⟨a, ha⟩ := Option.isSome_iff_exists.1 hmi
    rw [hmb, ha, hmr]
    exact (loadOk_insert P hd h key value a).1
  | erase key mr =>
    have hmr : mr = true := hok
    rw [hmr]
    exact loadOk_erase P hd h key
  | find key => exact h
  | rehash mb =>
    have hmb : mb = true := hok
    rw [hmb]
    exact loadOk_rehash P hd t
  | clear =>
    refine ⟨fun hs => absurd hs (by simp [step, ht_clear]), ?_⟩
    show 0 / 0 ≤ P.max_ldfac_val
    exact Nat.zero_le _

theorem loadOk_run (hd : IsDefault P) (ops : List (Op K V)) :
    ∀ t : ht_type K V, LoadOk P t → (∀ op ∈ ops, op.allocOk = true) →
      LoadOk P (run P t ops) := by
  induction ops with
  | nil => intro t h _; exact h
  | cons op rest ih =>
    intro t h hok
    exact ih _ (loadOk_step P hd h op (hok op (List.mem_cons_self _ _)))
      (fun o ho => hok o (List.mem_cons_of_mem _ ho))

theorem loadOk_init : LoadOk P (ht_init : ht_type K V) := by
  refine ⟨fun hs => absurd hs (by simp [ht_init]), ?_⟩
  show 0 / 0 ≤ P.max_ldfac_val
  exact Nat.zero_le _

/-- The load after a successful `ht_erase` with the default policy. -/
theorem erase_load (hd : IsDefault P) {t : ht_type K V} (h : LoadOk P t) (key : K)
    (h1 : (ht_erase P t key true).1 = 1) :
    (2 ≤ (ht_erase P t key true).2.itemCount →
      (ht_erase P t key true).2.binCount / (ht_erase P t key true).2.itemCount ≤ 16) ∧
    ((ht_erase P t key true).2.itemCount = 1 →
      (ht_erase P t key true).2.binCount = 32) := by
  by_cases hg : 0 < t.itemCount ∧ 0 < t.binCount
  · cases he : eraseChain P key ((bins t).getD (P.hash_func key % t.binCount) []) with
    | none =>
      rw [ht_erase_chain_none P he] at h1
      exact absurd h1 (by simp)
    | some chain =>
      have hbc : 32 ≤ t.binCount := by
        have := h.1 (isSome_of_eraseChain P he)
        rw [hd.1] at this
        exact this
      rw [ht_erase_chain_some P hg he]
      by_cases htr : 0 < (unlinkItem P t key chain).itemCount ∧
          (unlinkItem P t key chain).binCount / (unlinkItem P t key chain).itemCount
            > P.min_inv_ldfac_val
      · rw [if_pos htr]
        show (_ → (ht_rehash P _ true).binCount / (ht_rehash P _ true).itemCount ≤ 16) ∧
          ((ht_rehash P _ true).itemCount = 1 → (ht_rehash P _ true).binCount = 32)
        rw [binCount_rehash_true, itemCount_rehash, aimBinCount_default P hd]
        constructor
        · intro h2
          apply Nat.div_le_of_le_mul
          split <;> omega
        · intro h2
          rw [h2]
          rfl
      · rw [if_neg htr]
        rw [hd.2.2.2] at htr
        constructor
        · intro h2
          have h3 : 0 < (unlinkItem P t key chain).itemCount := Nat.lt_of_lt_of_le (by decide) h2
          exact Nat.le_of_not_lt (fun hlt => htr ⟨h3, hlt⟩)
        · intro h2
          have h2' : (unlinkItem P t key chain).itemCount = 1 := h2
          exfalso
          apply htr
          rw [h2', Nat.div_one]
          exact ⟨Nat.one_pos, Nat.lt_of_lt_of_le (by decide) hbc⟩
  · rw [ht_erase_guard P hg] at h1
    exact absurd h1 (by simp)

end Load

/-! ## The properties of the specification -/

section Claims

theorem lawful_nat (min_bin aim max_ld min_inv : Nat) (hmin : 0 < min_bin) (haim : 0 < aim) :
    Lawful ({ hash_func := HASH_TABLE_DEFAULT_HASH, pred_func := HASH_TABLE_DEFAULT_PRED,
              min_bin_size_val := min_bin, aim_ldfac_val := aim, max_ldfac_val := max_ld,
              min_inv_ldfac_val := min_inv } : Params Nat) where
  refl := by intro a; simp [HASH_TABLE_DEFAULT_PRED]
  symm := by intro a b h; simp [HASH_TABLE_DEFAULT_PRED] at h ⊢; exact h.symm
  trans := by
    intro a b c h1 h2
    simp [HASH_TABLE_DEFAULT_PRED] at h1 h2 ⊢
    exact h1.trans h2
  hash_eq := by
    intro a b h
    simp [HASH_TABLE_DEFAULT_PRED] at h
    simp [HASH_TABLE_DEFAULT_HASH, h]
  min_pos := hmin
  aim_pos := haim

theorem lawful_htest : Lawful htest := lawful_nat 32 2 16 16 (by decide) (by decide)

theorem lawful_smallPolicy : Lawful smallPolicy := lawful_nat 2 1 1 2 (by decide) (by decide)

theorem ht_rehash_false (P : Params K) (t : ht_type K V) : ht_rehash P t false = t := by
  unfold ht_rehash
  split
  · rfl
  · rfl

/-- C1. Refinement of a reference map.  For a lawful instantiation (equality an
equivalence that respects the hash; in particular with the default policy 32/2/16/16)
and any finite sequence of calls on a freshly initialised table in which no allocation
fails: `ht_size` is the size of the reference map driven by the same sequence, every
`ht_find` agrees with the reference lookup (not found exactly when absent, the same
value otherwise), and any `ht_insert` made next returns the value the reference map
holds for that key after its insert-if-absent. -/
theorem refinement_of_reference_map (P : Params K) (hL : Lawful P) (ops : List (Op K V))
    (hok : ∀ op ∈ ops, op.allocOk = true) :
    ht_size (run P ht_init ops) = (ref_run P [] ops).length ∧
    (∀ key, (ht_find P (run P ht_init ops) key).map (fun item => item.value) =
      ref_find P (ref_run P [] ops) key) ∧
    (∀ key value a mr,
      (ht_insert P (run P ht_init ops) key value true (some a) mr).1.map
          (fun item => item.value) =
        ref_find P (ref_insert P (ref_run P [] ops) key value) key) := by
  have hsim : Sim P (run P (ht_init : ht_type K V) ops) (ref_run P [] ops) :=
    sim_run P hL ops ht_init [] ⟨wf_init P, List.Perm.refl _⟩ hok
  refine ⟨sim_size P hsim, sim_find P hL hsim, ?_⟩
  intro key value a mr
  rw [ht_insert_eq_find P hL hsim.1]
  exact sim_find P hL (sim_insert P hL hsim key value a mr) key

theorem refinement_of_reference_map_witness :
    Lawful htest ∧
    ht_size (run htest ht_init mixedCalls) = (ref_run htest [] mixedCalls).length ∧
    (ht_find htest (run htest ht_init mixedCalls) 33).map (fun item => item.value) =
      ref_find htest (ref_run htest [] mixedCalls) 33 ∧
    (ht_insert htest (run htest ht_init mixedCalls) 33 99 true (some 7) true).1.map
        (fun item => item.value) =
      ref_find htest (ref_insert htest (ref_run htest [] mixedCalls) 33 99) 33 :=
  ⟨lawful_htest,
    (refinement_of_reference_map htest lawful_htest mixedCalls (by decide)).1,
    (refinement_of_reference_map htest lawful_htest mixedCalls (by decide)).2.1 33,
    (refinement_of_reference_map htest lawful_htest mixedCalls (by decide)).2.2 33 99 7 true⟩

/-- C2. Insert then find.  For a lawful instantiation, every well-formed table `t`
(the never-allocated one included), every key that `ht_find` does not find in `t` and
every value: when the bucket-array and node allocations succeed, `ht_insert` returns
the new node holding that value, `ht_find` of the key on the resulting table returns
that node, and `ht_size` has grown by exactly 1, whether or not an automatic rehash
was triggered and whatever its allocation answered. -/
theorem insert_fresh_then_find (P : Params K) (hL : Lawful P) (t : ht_type K V)
    (hw : wf P t) (key : K) (value : V) (a : Nat) (mr : Bool)
    (hf : ht_find P t key = none) :
    (ht_insert P t key value true (some a) mr).1 = some ⟨key, value, a⟩ ∧
    ht_find P (ht_insert P t key value true (some a) mr).2 key = some ⟨key, value, a⟩ ∧
    ht_size (ht_insert P t key value true (some a) mr).2 = ht_size t + 1 := by
  obtain ⟨h1, hw1, hp1, hc⟩ := ht_insert_fresh P hL hw hf value a mr
  exact ⟨h1, ht_find_of_mem P hL hw1 (hp1.mem_iff.2 (List.mem_cons_self _ _))
    (hL.refl key), hc⟩

theorem insert_fresh_then_find_witness :
    Lawful smallPolicy ∧ wf smallPolicy (run smallPolicy ht_init threeInserts) ∧
    ht_find smallPolicy (run smallPolicy ht_init threeInserts) 3 = none ∧
    (ht_insert smallPolicy (run smallPolicy ht_init threeInserts) 3 103 true (some 1003)
        true).1 = some ⟨3, 103, 1003⟩ ∧
    ht_find smallPolicy (ht_insert smallPolicy (run smallPolicy ht_init threeInserts)
        3 103 true (some 1003) true).2 3 = some ⟨3, 103, 1003⟩ ∧
    ht_size (ht_insert smallPolicy (run smallPolicy ht_init threeInserts) 3 103 true
        (some 1003) true).2 = ht_size (run smallPolicy ht_init threeInserts) + 1 :=
  ⟨lawful_smallPolicy, by decide, by decide,
    insert_fresh_then_find smallPolicy lawful_smallPolicy
      (run smallPolicy ht_init threeInserts) (by decide) 3 103 1003 true (by decide)⟩

/-- C3. Insert is insert-if-absent.  When the predicate is symmetric and `ht_find`
finds `key` in `t` (at the item holding `v1`), `ht_insert` of `key` with any value and
any allocator answers returns that same item and leaves the table exactly as it was
(same `itemCount`, `binCount` and chains), so `ht_find` still returns that item. -/
theorem insert_existing_unchanged (P : Params K)
    (hsymm : ∀ a b, P.pred_func a b = true → P.pred_func b a = true)
    (t : ht_type K V) (key : K) (item : ht_item K V) (hf : ht_find P t key = some item)
    (v2 : V) (mb : Bool) (mi : Option Nat) (mr : Bool) :
    (ht_insert P t key v2 mb mi mr).1 = some item ∧
    (ht_insert P t key v2 mb mi mr).2 = t ∧
    ht_find P (ht_insert P t key v2 mb mi mr).2 key = some item := by
  rw [ht_insert_found P hsymm hf]
  exact ⟨rfl, rfl, hf⟩

theorem insert_existing_unchanged_witness :
    ht_find htest (run htest ht_init twoInserts) 1 = some ⟨1, 10, 1001⟩ ∧
    (ht_insert htest (run htest ht_init twoInserts) 1 99 true (some 7) true).1 =
      some ⟨1, 10, 1001⟩ ∧
    (ht_insert htest (run htest ht_init twoInserts) 1 99 true (some 7) true).2 =
      run htest ht_init twoInserts ∧
    ht_find htest (ht_insert htest (run htest ht_init twoInserts) 1 99 true (some 7)
      true).2 1 = some ⟨1, 10, 1001⟩ :=
  ⟨by decide,
    insert_existing_unchanged htest lawful_htest.symm (run htest ht_init twoInserts) 1
      ⟨1, 10, 1001⟩ (by decide) 99 true (some 7) true⟩

/-- C4. Erase postcondition.  For a lawful instantiation, every well-formed table and
every key: `ht_erase` returns 1 exactly when `ht_find` finds the key, and 0 otherwise;
when it returns 1 the item count has decreased by exactly 1, the key is no longer
found, and every key not considered the same as the erased one is looked up as before
(with or without a shrink rehash, whatever its allocation answered); when it returns 0
the table is unchanged. -/
theorem erase_postcondition (P : Params K) (hL : Lawful P) (t : ht_type K V)
    (hw : wf P t) (key : K) (mr : Bool) :
    ((ht_erase P t key mr).1 = 1 ↔ (ht_find P t key).isSome = true) ∧
    ((ht_erase P t key mr).1 = 1 ∨ (ht_erase P t key mr).1 = 0) ∧
    ((ht_erase P t key mr).1 = 1 →
      ht_size (ht_erase P t key mr).2 + 1 = ht_size t ∧
      ht_find P (ht_erase P t key mr).2 key = none ∧
      ∀ other, P.pred_func other key = false →
        ht_find P (ht_erase P t key mr).2 other = ht_find P t other) ∧
    ((ht_erase P t key mr).1 = 0 → (ht_erase P t key mr).2 = t) := by
  cases hf : ht_find P t key with
  | none =>
    rw [ht_erase_not_found P hf]
    simp
  | some item =>
    obtain ⟨h1, _, _, hc⟩ := ht_erase_found P hL hw hf mr
    refine ⟨⟨fun _ => rfl, fun _ => h1⟩, Or.inl h1, fun _ => ⟨hc, ?_, ?_⟩, ?_⟩
    · exact ht_find_erase_self P hL hw hf mr
    · intro other hne
      rw [ht_find_erase_other P hL hw hf mr other hne]
    · intro h0
      rw [h1] at h0
      exact absurd h0 (by decide)

theorem erase_postcondition_witness :
    Lawful smallPolicy ∧ wf smallPolicy (run smallPolicy ht_init growThenErase) ∧
    (ht_erase smallPolicy (run smallPolicy ht_init growThenErase) 2 true).1 = 1 ∧
    (ht_erase smallPolicy (run smallPolicy ht_init growThenErase) 2 true).2.binCount = 2 ∧
    (run smallPolicy ht_init growThenErase).binCount = 4 ∧
    ht_size (ht_erase smallPolicy (run smallPolicy ht_init growThenErase) 2 true).2 + 1 =
      ht_size (run smallPolicy ht_init growThenErase) ∧
    ht_find smallPolicy (ht_erase smallPolicy (run smallPolicy ht_init growThenErase)
      2 true).2 2 = none :=
  ⟨lawful_smallPolicy, by decide, by decide, by decide, by decide,
    ((erase_postcondition smallPolicy lawful_smallPolicy
      (run smallPolicy ht_init growThenErase) (by decide) 2 true).2.2.1 (by decide)).1,
    ((erase_postcondition smallPolicy lawful_smallPolicy
      (run smallPolicy ht_init growThenErase) (by decide) 2 true).2.2.1 (by decide)).2.1⟩

/-- C5. Clear resets to the initial state.  For every table, allocated or not,
`ht_clear` yields exactly the state that `ht_init` produces, so `ht_size` is 0 and
`ht_find` finds no key, whatever the table held before. -/
theorem clear_resets (P : Params K) (t : ht_type K V) :
    ht_clear t = ht_init ∧ ht_size (ht_clear t) = 0 ∧
    (ht_clear t).binCount = 0 ∧ (ht_clear t).binVec = none ∧
    ∀ key, ht_find P (ht_clear t) key = none := by
  refine ⟨rfl, rfl, rfl, rfl, ?_⟩
  intro key
  simp [ht_find, ht_clear]

/-- C6. Rehash is observationally the identity.  For a lawful instantiation, every
well-formed table and every key, `ht_find` after `ht_rehash` returns what it returned
before (not found, or the same item with the same value) and `ht_size` is unchanged,
whether the rehash grows, shrinks, does nothing or fails to allocate. -/
theorem rehash_observational (P : Params K) (hL : Lawful P) (t : ht_type K V)
    (hw : wf P t) (mb : Bool) (key : K) :
    ht_find P (ht_rehash P t mb) key = ht_find P t key ∧
    ht_size (ht_rehash P t mb) = ht_size t :=
  ⟨ht_find_rehash P hL hw mb key, itemCount_rehash P t mb⟩

theorem rehash_observational_witness :
    Lawful smallPolicy ∧ wf smallPolicy (run smallPolicy ht_init threeInserts) ∧
    (run smallPolicy ht_init threeInserts).binCount = 2 ∧
    (ht_rehash smallPolicy (run smallPolicy ht_init threeInserts) true).binCount = 3 ∧
    ht_find smallPolicy (ht_rehash smallPolicy (run smallPolicy ht_init threeInserts)
      true) 2 = ht_find smallPolicy (run smallPolicy ht_init threeInserts) 2 ∧
    ht_size (ht_rehash smallPolicy (run smallPolicy ht_init threeInserts) true) =
      ht_size (run smallPolicy ht_init threeInserts) :=
  ⟨lawful_smallPolicy, by decide, by decide, by decide,
    rehash_observational smallPolicy lawful_smallPolicy
      (run smallPolicy ht_init threeInserts) (by decide) true 2⟩


theorem scan_freshBins (P : Params K) (key : K) :
    ((bins (freshBins P : ht_type K V)).getD
      (P.hash_func key % (freshBins P : ht_type K V).binCount) []).find?
      (fun itemPtr => P.pred_func itemPtr.key key) = none := by
  have : bins (freshBins P : ht_type K V) = List.replicate P.min_bin_size_val [] := rfl
  rw [this, getD_replicate_nil]
  rfl

theorem empty_of_no_bins (P : Params K) {t : ht_type K V} (hw : wf P t)
    (e : t.binVec = none) : t.itemCount = 0 ∧ t.binCount = 0 := by
  constructor
  · rw [itemCount_eq P hw]
    simp [items, bins, e]
  · rw [← bins_length P hw]
    simp [bins, e]

theorem ht_find_no_items (P : Params K) {t : ht_type K V} (h : t.itemCount = 0) (key : K) :
    ht_find P t key = none := by
  unfold ht_find
  rw [if_neg (by omega)]

/-- What a failing `ht_insert` does on a table whose bucket array is present. -/
theorem insert_fail_alloc (P : Params K) {t : ht_type K V} (hs : t.binVec.isSome = true)
    (key : K) (value : V) (mb : Bool) (mi : Option Nat) (mr : Bool)
    (hfail : (ht_insert P t key value mb mi mr).1 = none) :
    mi = none ∧ (ht_insert P t key value mb mi mr).2 = t := by
  cases hscan : ((bins t).getD (P.hash_func key % t.binCount) []).find?
      (fun itemPtr => P.pred_func itemPtr.key key) with
  | some item =>
    rw [ht_insert_scan_some P hs hscan] at hfail
    exact absurd hfail (by simp)
  | none =>
    cases mi with
    | none =>
      rw [(ht_insert_scan_none P hs hscan value mb mr).1]
      exact ⟨rfl, rfl⟩
    | some a =>
      rw [(ht_insert_scan_none P hs hscan value mb mr).2 a] at hfail
      split at hfail <;> exact absurd hfail (by simp)

/-- C7. A failing insert leaves no half-done table.  For every well-formed table,
whenever `ht_insert` returns `NULL`, `ht_size` and every `ht_find` are as before the
call; when the bucket-array allocation failed the table is exactly unchanged (no
bucket array, both counters zero); when only the node allocation failed the table is
unchanged if it had a bucket array, and otherwise is the fresh bucket array of
`min_bin_size_val` empty buckets with `itemCount` zero. -/
theorem insert_failure_harmless (P : Params K) (t : ht_type K V) (hw : wf P t)
    (key : K) (value : V) (mb : Bool) (mi : Option Nat) (mr : Bool)
    (hfail : (ht_insert P t key value mb mi mr).1 = none) :
    ht_size (ht_insert P t key value mb mi mr).2 = ht_size t ∧
    (∀ k, ht_find P (ht_insert P t key value mb mi mr).2 k = ht_find P t k) ∧
    (t.binVec = none → mb = false →
      (ht_insert P t key value mb mi mr).2 = t ∧ t.binCount = 0 ∧ t.itemCount = 0) ∧
    (t.binVec = none → mb = true →
      mi = none ∧ (ht_insert P t key value mb mi mr).2 = freshBins P) ∧
    (t.binVec.isSome = true → mi = none ∧ (ht_insert P t key value mb mi mr).2 = t) := by
  cases e : t.binVec with
  | some bv =>
    have hs : t.binVec.isSome = true := by rw [e]; rfl
    obtain ⟨h1, h2⟩ := insert_fail_alloc P hs key value mb mi mr hfail
    rw [h2]
    exact ⟨rfl, fun _ => rfl, fun h => absurd h (by simp), fun h => absurd h (by simp),
      fun _ => ⟨h1, rfl⟩⟩
  | none =>
    obtain ⟨hic, hbc⟩ := empty_of_no_bins P hw e
    cases mb with
    | false =>
      have h2 : ht_insert P t key value false mi mr = (none, t) := by
        unfold ht_insert
        rw [(lazyAlloc_none P e).1]
      rw [h2]
      exact ⟨rfl, fun _ => rfl, fun _ _ => ⟨rfl, hbc, hic⟩,
        fun _ h => absurd h (by simp), fun h => absurd h (by simp)⟩
    | true =>
      have hl := ht_insert_lazy P (lazyAlloc_none P e).2 key value true mi mr
      rw [hl] at hfail ⊢
      obtain ⟨h1, h2⟩ := insert_fail_alloc P (t := freshBins P) rfl key value true mi mr hfail
      rw [h2]
      refine ⟨?_, ?_, fun _ h => absurd h (by simp), fun _ _ => ⟨h1, rfl⟩,
        fun h => absurd h (by simp)⟩
      · show 0 = t.itemCount
        exact hic.symm
      · intro k
        rw [ht_find_no_items P hic, ht_find_no_items P rfl]

theorem insert_failure_harmless_witness :
    wf htest (ht_init : ht_type Nat Nat) ∧
    (ht_insert htest (ht_init : ht_type Nat Nat) 5 50 true none true).1 = none ∧
    ht_size (ht_insert htest (ht_init : ht_type Nat Nat) 5 50 true none true).2 =
      ht_size (ht_init : ht_type Nat Nat) ∧
    (ht_insert htest (ht_init : ht_type Nat Nat) 5 50 true none true).2 = freshBins htest :=
  ⟨by decide, by decide,
    (insert_failure_harmless htest ht_init (by decide) 5 50 true none true (by decide)).1,
    ((insert_failure_harmless htest ht_init (by decide) 5 50 true none true
      (by decide)).2.2.2.1 rfl rfl).2⟩

theorem scan_none_of_find_none (P : Params K) (hL : Lawful P) {t : ht_type K V}
    (hw : wf P t) {key : K} (hf : ht_find P t key = none) :
    ((bins t).getD (P.hash_func key % t.binCount) []).find?
      (fun itemPtr => P.pred_func itemPtr.key key) = none := by
  have hfresh := (ht_find_eq_none_iff P hL hw key).1 hf
  rw [scan_eq P hL.symm, List.find?_eq_none]
  intro x hx
  rw [hfresh x (mem_flatten_of_mem_getD _ _ _ hx)]
  simp

theorem insert_rehash_fails_alloc (P : Params K) (hL : Lawful P) {t : ht_type K V}
    (hw : wf P t) (hs : t.binVec.isSome = true) {key : K} (hf : ht_find P t key = none)
    (value : V) (mb : Bool) (a : Nat) :
    (ht_insert P t key value mb (some a) false).2 = linkItem P t ⟨key, value, a⟩ := by
  rw [(ht_insert_scan_none P hs (scan_none_of_find_none P hL hw hf) value mb false).2 a,
    ht_rehash_false]
  split <;> rfl

/-- C8. Rehash failure is silent and atomic.  `ht_rehash` whose allocation fails
returns the table exactly as it was.  Consequently, for a lawful instantiation and a
well-formed table, an `ht_insert` of a key that is not found, whose bucket-array and
node allocations succeed and whose automatically triggered rehash (if any) fails,
returns the new node, leaves exactly the table with that node linked (at the bucket
count the table had, or `min_bin_size_val` when the bucket array was just created), and
the key is found afterwards. -/
theorem rehash_failure_silent (P : Params K) (hL : Lawful P) (t : ht_type K V)
    (hw : wf P t) (key : K) (value : V) (a : Nat) (hf : ht_find P t key = none) :
    (∀ u : ht_type K V, ht_rehash P u false = u) ∧
    (ht_insert P t key value true (some a) false).1 = some ⟨key, value, a⟩ ∧
    (ht_insert P t key value true (some a) false).2 =
      linkItem P (afterLazyAlloc P t) ⟨key, value, a⟩ ∧
    (ht_insert P t key value true (some a) false).2.binCount =
      (if t.binVec.isSome = true then t.binCount else P.min_bin_size_val) ∧
    ht_find P (ht_insert P t key value true (some a) false).2 key =
      some ⟨key, value, a⟩ := by
  obtain ⟨h1, hw1, hp1, _⟩ := ht_insert_fresh P hL hw hf value a false
  have h2 := ht_find_of_mem P hL hw1 (hp1.mem_iff.2 (List.mem_cons_self _ _)) (hL.refl key)
  have h3 : (ht_insert P t key value true (some a) false).2 =
      linkItem P (afterLazyAlloc P t) ⟨key, value, a⟩ := by
    unfold afterLazyAlloc
    cases e : t.binVec with
    | some bv =>
      have hs : t.binVec.isSome = true := by rw [e]; rfl
      rw [insert_rehash_fails_alloc P hL hw hs hf]
      simp
    | none =>
      rw [ht_insert_lazy P (lazyAlloc_none P e).2 key value true (some a) false,
        insert_rehash_fails_alloc P hL (wf_freshBins P hL.min_pos) rfl
          (ht_find_no_items P rfl key)]
      simp
  refine ⟨ht_rehash_false P, h1, h3, ?_, h2⟩
  rw [h3]
  unfold afterLazyAlloc
  split <;> rfl


theorem rehash_failure_silent_witness :
    Lawful smallPolicy ∧ wf smallPolicy (run smallPolicy ht_init threeInserts) ∧
    ht_find smallPolicy (run smallPolicy ht_init threeInserts) 3 = none ∧
    (ht_insert smallPolicy (run smallPolicy ht_init threeInserts) 3 103 true (some 1003)
      true).2.binCount = 4 ∧
    (ht_insert smallPolicy (run smallPolicy ht_init threeInserts) 3 103 true (some 1003)
      false).1 = some ⟨3, 103, 1003⟩ ∧
    (ht_insert smallPolicy (run smallPolicy ht_init threeInserts) 3 103 true (some 1003)
      false).2.binCount = 2 ∧
    ht_find smallPolicy (ht_insert smallPolicy (run smallPolicy ht_init threeInserts)
      3 103 true (some 1003) false).2 3 = some ⟨3, 103, 1003⟩ :=
  ⟨lawful_smallPolicy, by decide, by decide, by decide,
    (rehash_failure_silent smallPolicy lawful_smallPolicy
      (run smallPolicy ht_init threeInserts) (by decide) 3 103 1003 (by decide)).2.1,
    (rehash_failure_silent smallPolicy lawful_smallPolicy
      (run smallPolicy ht_init threeInserts) (by decide) 3 103 1003 (by decide)).2.2.2.1,
    (rehash_failure_silent smallPolicy lawful_smallPolicy
      (run smallPolicy ht_init threeInserts) (by decide) 3 103 1003 (by decide)).2.2.2.2⟩

/-- C9. Maximum load factor after insert.  With the default policy constants (32, 2,
16, 16) and no allocation failure, on every table reached from `ht_init` by a sequence
of calls, an `ht_insert` returns a value and leaves a bucket array of at least 32
buckets with `itemCount / binCount` at most 16. -/
theorem max_load_after_insert (P : Params K) (hd : IsDefault P) (ops : List (Op K V))
    (hok : ∀ op ∈ ops, op.allocOk = true) (key : K) (value : V) (a : Nat) :
    (ht_insert P (run P ht_init ops) key value true (some a) true).1.isSome = true ∧
    32 ≤ (ht_insert P (run P ht_init ops) key value true (some a) true).2.binCount ∧
    (ht_insert P (run P ht_init ops) key value true (some a) true).2.itemCount /
      (ht_insert P (run P ht_init ops) key value true (some a) true).2.binCount ≤ 16 := by
  obtain ⟨h1, h2, h3⟩ :=
    loadOk_insert P hd (loadOk_run P hd ops ht_init (loadOk_init P) hok) key value a
  have hb := h1.1 h3
  have hl := h1.2
  rw [hd.1] at hb
  rw [hd.2.2.1] at hl
  exact ⟨h2, hb, hl⟩

theorem max_load_after_insert_witness :
    IsDefault htest ∧
    (ht_insert htest (run htest ht_init mixedCalls) 7 70 true (some 1007) true).1.isSome
      = true ∧
    32 ≤ (ht_insert htest (run htest ht_init mixedCalls) 7 70 true (some 1007)
      true).2.binCount ∧
    (ht_insert htest (run htest ht_init mixedCalls) 7 70 true (some 1007) true).2.itemCount /
      (ht_insert htest (run htest ht_init mixedCalls) 7 70 true (some 1007)
        true).2.binCount ≤ 16 :=
  ⟨isDefault_DEFINE7 _ _,
    max_load_after_insert htest (isDefault_DEFINE7 _ _) mixedCalls (by decide) 7 70 1007⟩

/-- C10, as stated, fails.  With the default policy and no allocation failure, after
two inserts into a freshly initialised table, `ht_erase` of one of the keys returns 1
and leaves `itemCount = 1 > 0` with 32 buckets, so `binCount / itemCount` is 32, which
is not at most 16. -/
theorem min_load_after_erase_counterexample :
    IsDefault htest ∧ twoInserts.all Op.allocOk = true ∧
    (ht_erase htest (run htest ht_init twoInserts) 1 true).1 = 1 ∧
    0 < (ht_erase htest (run htest ht_init twoInserts) 1 true).2.itemCount ∧
    (ht_erase htest (run htest ht_init twoInserts) 1 true).2.binCount /
      (ht_erase htest (run htest ht_init twoInserts) 1 true).2.itemCount = 32 ∧
    ¬ ((ht_erase htest (run htest ht_init twoInserts) 1 true).2.binCount /
      (ht_erase htest (run htest ht_init twoInserts) 1 true).2.itemCount ≤ 16) :=
  ⟨⟨rfl, rfl, rfl, rfl⟩, by decide, by decide, by decide, by decide, by decide⟩

/-- C10, amended.  With the default policy constants and no allocation failure, on
every table reached from `ht_init` by a sequence of calls, after an `ht_erase` that
returns 1: when it leaves at least 2 items, `binCount / itemCount` is at most 16; when
it leaves exactly 1 item, the bucket count is the minimum bucket count 32 (the rehash
target is floored there), so the quotient is 32. -/
theorem min_load_after_erase_amended (P : Params K) (hd : IsDefault P)
    (ops : List (Op K V)) (hok : ∀ op ∈ ops, op.allocOk = true) (key : K)
    (h1 : (ht_erase P (run P ht_init ops) key true).1 = 1) :
    (2 ≤ (ht_erase P (run P ht_init ops) key true).2.itemCount →
      (ht_erase P (run P ht_init ops) key true).2.binCount /
        (ht_erase P (run P ht_init ops) key true).2.itemCount ≤ 16) ∧
    ((ht_erase P (run P ht_init ops) key true).2.itemCount = 1 →
      (ht_erase P (run P ht_init ops) key true).2.binCount = 32 ∧
      (ht_erase P (run P ht_init ops) key true).2.binCount /
        (ht_erase P (run P ht_init ops) key true).2.itemCount = 32) := by
  obtain ⟨ha, hb⟩ :=
    erase_load P hd (loadOk_run P hd ops ht_init (loadOk_init P) hok) key h1
  refine ⟨ha, fun h => ⟨hb h, ?_⟩⟩
  rw [hb h, h]

theorem min_load_after_erase_amended_witness :
    IsDefault htest ∧
    (ht_erase htest (run htest ht_init twoInserts) 1 true).1 = 1 ∧
    (ht_erase htest (run htest ht_init twoInserts) 1 true).2.itemCount = 1 ∧
    (ht_erase htest (run htest ht_init twoInserts) 1 true).2.binCount = 32 :=
  ⟨isDefault_DEFINE7 _ _, by decide, by decide,
    ((min_load_after_erase_amended htest (isDefault_DEFINE7 _ _) twoInserts (by decide) 1
      (by decide)).2 (by decide)).1⟩

end Claims

/-! ## The structural invariant -/

section Structure
variable (P : Params K)

theorem shaped_init : Shaped P (ht_init : ht_type K V) := by
  simp [Shaped, ht_init, bins, items]

theorem shaped_isSome {t : ht_type K V} (h : Shaped P t) (hbc : 0 < t.binCount) :
    t.binVec.isSome = true := by
  cases e : t.binVec.isSome with
  | true => rfl
  | false =>
    have := h.1 e
    omega

theorem shaped_placed {t : ht_type K V} (h : Shaped P t) {i : Nat} {item : ht_item K V}
    (hm : item ∈ (bins t).getD i []) : P.hash_func item.key % t.binCount = i := by
  have hi := lt_of_mem_getD _ _ _ hm
  rw [h.2.2.1] at hi
  exact h.2.2.2.2 i hi item hm

theorem shaped_freshBins : Shaped P (freshBins P : ht_type K V) := by
  refine ⟨fun h => absurd h (by simp [freshBins]), fun _ => Nat.le_refl _, ?_, ?_, ?_⟩
  · simp [bins, freshBins]
  · rw [items_freshBins]; rfl
  · intro i _ item hx
    simp only [bins, freshBins, Option.getD_some] at hx
    rw [getD_replicate_nil] at hx
    exact absurd hx (List.not_mem_nil _)

/-- The bucket array that a successful, effective `ht_rehash` builds, for a table that
has `binCount` buckets and `itemCount` items. -/
theorem rehash_bins_shaped {t : ht_type K V} (hlen : (bins t).length = t.binCount)
    (hic : t.itemCount = (items t).length) (n : Nat) (hn : 0 < n) :
    (if 0 < t.itemCount then relinkAll P n t (List.replicate n [])
      else List.replicate n []).length = n ∧
    (if 0 < t.itemCount then relinkAll P n t (List.replicate n [])
      else List.replicate n []).flatten.Perm (items t) ∧
    (∀ i, ∀ x ∈ (if 0 < t.itemCount then relinkAll P n t (List.replicate n [])
      else List.replicate n []).getD i [], P.hash_func x.key % n = i) := by
  by_cases hpos : 0 < t.itemCount
  · rw [if_pos hpos, relinkAll_eq P hlen n _]
    obtain ⟨a, b, c⟩ := foldl_relink P n hn (items t) (List.replicate n [])
      (List.length_replicate _ _) (by
        intro i x hx
        rw [getD_replicate_nil] at hx
        exact absurd hx (List.not_mem_nil _))
    refine ⟨a, ?_, c⟩
    rw [flatten_replicate_nil, List.append_nil] at b
    exact b
  · rw [if_neg hpos]
    have hnil : items t = [] := by
      apply List.eq_nil_of_length_eq_zero
      rw [← hic]; omega
    rw [hnil, flatten_replicate_nil]
    refine ⟨List.length_replicate _ _, List.Perm.refl _, ?_⟩
    intro i x hx
    rw [getD_replicate_nil] at hx
    exact absurd hx (List.not_mem_nil _)

theorem shaped_rehash (hmin : 0 < P.min_bin_size_val) {t : ht_type K V} (h : Shaped P t)
    (mb : Bool) :
    Shaped P (ht_rehash P t mb) ∧ (items (ht_rehash P t mb)).Perm (items t) := by
  have hn : 0 < aimBinCount P t := Nat.lt_of_lt_of_le hmin (min_le_aimBinCount P t)
  unfold ht_rehash
  split
  · split
    · obtain ⟨a, b, c⟩ := rehash_bins_shaped P h.2.2.1 h.2.2.2.1 (aimBinCount P t) hn
      refine ⟨⟨fun hs => absurd hs (by simp), fun _ => min_le_aimBinCount P t, a, ?_, ?_⟩, b⟩
      · exact h.2.2.2.1.trans b.length_eq.symm
      · intro i _ x hx
        exact c i x hx
    · exact ⟨h, List.Perm.refl _⟩
  · exact ⟨h, List.Perm.refl _⟩

/-- Linking a node keeps the structure and adds exactly that node. -/
theorem shaped_link (hmin : 0 < P.min_bin_size_val) {t : ht_type K V} (h : Shaped P t)
    (hs : t.binVec.isSome = true) (item : ht_item K V) :
    Shaped P (linkItem P t item) ∧ (items (linkItem P t item)).Perm (item :: items t) := by
  have hbc : 0 < t.binCount := Nat.lt_of_lt_of_le hmin (h.2.1 hs)
  have hi : P.hash_func item.key % t.binCount < (bins t).length := by
    rw [h.2.2.1]; exact Nat.mod_lt _ hbc
  have hperm : (items (linkItem P t item)).Perm (item :: items t) := by
    show ((bins t).set _ ((bins t).getD _ [] ++ [item])).flatten.Perm _
    refine (flatten_set_perm _ _ _ hi).trans ?_
    refine List.Perm.trans ?_ (List.Perm.cons _ (flatten_perm_getD (bins t) _ hi).symm)
    rw [List.append_assoc, List.singleton_append]
    exact List.perm_middle
  refine ⟨⟨fun hn => absurd hn (by simp [linkItem]), fun _ => h.2.1 hs, ?_, ?_, ?_⟩, hperm⟩
  · show ((bins t).set _ _).length = t.binCount
    rw [List.length_set, h.2.2.1]
  · show t.itemCount + 1 = (items (linkItem P t item)).length
    rw [hperm.length_eq, List.length_cons, h.2.2.2.1]
  · intro j _ x hx
    have hx1 : x ∈ ((bins t).set (P.hash_func item.key % t.binCount)
        ((bins t).getD (P.hash_func item.key % t.binCount) [] ++ [item])).getD j [] := hx
    rw [getD_set _ _ _ _ hi] at hx1
    show P.hash_func x.key % t.binCount = j
    split at hx1
    · rename_i e
      rcases List.mem_append.1 hx1 with hm | hm
      · rw [← e]; exact shaped_placed P h hm
      · rw [List.mem_singleton.1 hm, ← e]
    · exact shaped_placed P h hx1

/-- Unlinking a node of the bucket of `key` keeps the structure and removes exactly
that node. -/
theorem shaped_unlink {t : ht_type K V} (h : Shaped P t) (hbc : 0 < t.binCount)
    (key : K) (item : ht_item K V) (chain : ht_bin K V)
    (hperm : ((bins t).getD (P.hash_func key % t.binCount) []).Perm (item :: chain)) :
    Shaped P (unlinkItem P t key chain) ∧
      (items t).Perm (item :: items (unlinkItem P t key chain)) := by
  have hi : P.hash_func key % t.binCount < (bins t).length := by
    rw [h.2.2.1]; exact Nat.mod_lt _ hbc
  have hp : (items t).Perm (item :: items (unlinkItem P t key chain)) := by
    show (bins t).flatten.Perm (item :: ((bins t).set _ chain).flatten)
    refine (flatten_perm_getD _ _ hi).trans ?_
    refine List.Perm.trans ?_ (List.Perm.cons _ (flatten_set_perm _ _ _ hi).symm)
    rw [← List.cons_append]
    exact List.Perm.append_right _ hperm
  refine ⟨⟨fun hn => absurd hn (by simp [unlinkItem]),
    fun _ => h.2.1 (shaped_isSome P h hbc), ?_, ?_, ?_⟩, hp⟩
  · show ((bins t).set _ _).length = t.binCount
    rw [List.length_set, h.2.2.1]
  · show t.itemCount - 1 = (items (unlinkItem P t key chain)).length
    rw [h.2.2.2.1, hp.length_eq, List.length_cons]
    omega
  · intro j _ x hx
    have hx1 : x ∈ ((bins t).set (P.hash_func key % t.binCount) chain).getD j [] := hx
    rw [getD_set _ _ _ _ hi] at hx1
    show P.hash_func x.key % t.binCount = j
    split at hx1
    · rename_i e
      rw [← e]
      exact shaped_placed P h (hperm.mem_iff.2 (List.mem_cons_of_mem _ hx1))
    · exact shaped_placed P h hx1

theorem shaped_insert_alloc (hmin : 0 < P.min_bin_size_val) {t : ht_type K V}
    (h : Shaped P t) (hs : t.binVec.isSome = true) (key : K) (value : V) (mb : Bool)
    (mi : Option Nat) (mr : Bool) : Shaped P (ht_insert P t key value mb mi mr).2 := by
  cases hscan : ((bins t).getD (P.hash_func key % t.binCount) []).find?
      (fun itemPtr => P.pred_func itemPtr.key key) with
  | some item => rw [ht_insert_scan_some P hs hscan]; exact h
  | none =>
    cases mi with
    | none => rw [(ht_insert_scan_none P hs hscan value mb mr).1]; exact h
    | some a =>
      rw [(ht_insert_scan_none P hs hscan value mb mr).2 a]
      have h2 := (shaped_link P hmin h hs ⟨key, value, a⟩).1
      split
      · exact (shaped_rehash P hmin h2 mr).1
      · exact h2

theorem shaped_insert (hmin : 0 < P.min_bin_size_val) {t : ht_type K V} (h : Shaped P t)
    (key : K) (value : V) (mb : Bool) (mi : Option Nat) (mr : Bool) :
    Shaped P (ht_insert P t key value mb mi mr).2 := by
  cases e : t.binVec with
  | some bv => exact shaped_insert_alloc P hmin h (by rw [e]; rfl) key value mb mi mr
  | none =>
    cases mb with
    | false =>
      unfold ht_insert
      rw [(lazyAlloc_none P e).1]
      exact h
    | true =>
      rw [ht_insert_lazy P (lazyAlloc_none P e).2 key value true mi mr]
      exact shaped_insert_alloc P hmin (shaped_freshBins P) rfl key value true mi mr

theorem shaped_erase (hmin : 0 < P.min_bin_size_val) {t : ht_type K V} (h : Shaped P t)
    (key : K) (mr : Bool) : Shaped P (ht_erase P t key mr).2 := by
  by_cases hg : 0 < t.itemCount ∧ 0 < t.binCount
  · cases he : eraseChain P key ((bins t).getD (P.hash_func key % t.binCount) []) with
    | none => rw [ht_erase_chain_none P he]; exact h
    | some chain =>
      obtain ⟨item, _, hperm⟩ := eraseChain_some P key _ _ he
      have h1 := (shaped_unlink P h hg.2 key item chain hperm).1
      rw [ht_erase_chain_some P hg he]
      split
      · exact (shaped_rehash P hmin h1 mr).1
      · exact h1
  · rw [ht_erase_guard P hg]; exact h

theorem shaped_step (hmin : 0 < P.min_bin_size_val) {t : ht_type K V} (h : Shaped P t)
    (op : Op K V) : Shaped P (step P t op) := by
  cases op with
  | insert key value mb mi mr => exact shaped_insert P hmin h key value mb mi mr
  | erase key mr => exact shaped_erase P hmin h key mr
  | find key => exact h
  | rehash mb => exact (shaped_rehash P hmin h mb).1
  | clear => exact shaped_init P

theorem shaped_run (hmin : 0 < P.min_bin_size_val) (ops : List (Op K V)) :
    ∀ t : ht_type K V, Shaped P t → Shaped P (run P t ops) := by
  induction ops with
  | nil => intro t h; exact h
  | cons op rest ih => intro t h; exact ih _ (shaped_step P hmin h op)

end Structure

/-! ## Inserting new keys one after the other -/

section Growth
variable (P : Params K)

theorem isSome_afterLazyAlloc (t : ht_type K V) :
    (afterLazyAlloc P t).binVec.isSome = true := by
  unfold afterLazyAlloc
  split
  · assumption
  · rfl

theorem lazyAlloc_true (t : ht_type K V) :
    lazyAlloc P t true = some (afterLazyAlloc P t) := by
  unfold afterLazyAlloc
  cases e : t.binVec with
  | some bv =>
    rw [lazyAlloc_of_isSome P (by rw [e]; rfl)]
    simp
  | none =>
    rw [(lazyAlloc_none P e).2]
    simp

/-- `ht_insert` with successful bucket-array and node allocations, when its chain scan
finds no matching key: the node is linked, and rehash is called if the load factor
now exceeds the maximum. -/
theorem ht_insert_new {t : ht_type K V} {key : K}
    (hscan : ((bins (afterLazyAlloc P t)).getD
      (P.hash_func key % (afterLazyAlloc P t).binCount) []).find?
        (fun itemPtr => P.pred_func itemPtr.key key) = none)
    (value : V) (a : Nat) (mr : Bool) :
    ht_insert P t key value true (some a) mr =
      if (linkItem P (afterLazyAlloc P t) ⟨key, value, a⟩).itemCount /
          (linkItem P (afterLazyAlloc P t) ⟨key, value, a⟩).binCount > P.max_ldfac_val then
        (some ⟨key, value, a⟩, ht_rehash P (linkItem P (afterLazyAlloc P t) ⟨key, value, a⟩) mr)
      else (some ⟨key, value, a⟩, linkItem P (afterLazyAlloc P t) ⟨key, value, a⟩) := by
  rw [ht_insert_lazy P (lazyAlloc_true P t) key value true (some a) mr]
  exact (ht_insert_scan_none P (isSome_afterLazyAlloc P t) hscan value true mr).2 a

theorem shaped_afterLazyAlloc {t : ht_type K V} (h : Shaped P t) :
    Shaped P (afterLazyAlloc P t) ∧ items (afterLazyAlloc P t) = items t ∧
      (afterLazyAlloc P t).itemCount = t.itemCount := by
  unfold afterLazyAlloc
  split
  · exact ⟨h, rfl, rfl⟩
  · rename_i hn
    have e : t.binVec = none := by
      cases e : t.binVec with
      | none => rfl
      | some bv => rw [e] at hn; exact absurd rfl hn
    have hit : items t = [] := by simp [items, bins, e]
    refine ⟨shaped_freshBins P, ?_, ?_⟩
    · rw [items_freshBins, hit]
    · rw [h.2.2.2.1, hit]; rfl

/-- The arithmetic of the growth trigger for the default policy, below 4624 items. -/
theorem growth_arith (n : Nat) (hn : n + 1 < 4624) :
    ((n + 1) / (if n = 0 then 32 else bucketsAfter n) > 16 →
      (if (n + 1) / 2 < 32 then 32 else (n + 1) / 2) = bucketsAfter (n + 1)) ∧
    (¬ (n + 1) / (if n = 0 then 32 else bucketsAfter n) > 16 →
      (if n = 0 then 32 else bucketsAfter n) = bucketsAfter (n + 1)) := by
  unfold bucketsAfter
  by_cases h0 : n = 0
  · subst h0
    simp
  · by_cases h1 : n < 543
    · have e1 : n < 544 := by omega
      have e2 : n + 1 < 544 := by omega
      simp only [h0, e1, e2, if_true, if_false, Nat.succ_ne_zero]
      constructor
      · intro h; omega
      · intro _; trivial
    · by_cases h2 : n = 543
      · subst h2
        simp
      · have e1 : ¬ n < 544 := by omega
        have e2 : ¬ n + 1 < 544 := by omega
        simp only [h0, e1, e2, if_true, if_false, Nat.succ_ne_zero]
        constructor
        · intro h; omega
        · intro _; trivial

/-- One more insert of a key that no earlier key is considered the same as, with the
default policy and no allocation failure. -/
theorem insert_distinct_step (hd : IsDefault P) {t : ht_type K V} (l : List (ht_item K V))
    (x : ht_item K V) (h : Shaped P t) (hp : (items t).Perm l)
    (hb : t.binCount = bucketsAfter l.length) (hn : l.length + 1 < 4624)
    (hx : ∀ a ∈ l, P.pred_func a.key x.key = false) :
    Shaped P (ht_insert P t x.key x.value true (some x.addr) true).2 ∧
    (items (ht_insert P t x.key x.value true (some x.addr) true).2).Perm (l ++ [x]) ∧
    (ht_insert P t x.key x.value true (some x.addr) true).2.binCount =
      bucketsAfter (l.length + 1) := by
  have hmin : 0 < P.min_bin_size_val := by rw [hd.1]; decide
  obtain ⟨h1, hi1, hc1⟩ := shaped_afterLazyAlloc P h
  have hscan : ((bins (afterLazyAlloc P t)).getD
      (P.hash_func x.key % (afterLazyAlloc P t).binCount) []).find?
        (fun itemPtr => P.pred_func itemPtr.key x.key) = none := by
    rw [List.find?_eq_none]
    intro y hy
    have hy1 : y ∈ items (afterLazyAlloc P t) := mem_flatten_of_mem_getD _ _ _ hy
    rw [hi1] at hy1
    rw [hx y (hp.mem_iff.1 hy1)]
    simp
  obtain ⟨h2, hp2⟩ := shaped_link P hmin h1 (isSome_afterLazyAlloc P t) x
  have hperm : (items (linkItem P (afterLazyAlloc P t) x)).Perm (l ++ [x]) := by
    refine hp2.trans ?_
    rw [hi1]
    exact (List.Perm.cons _ hp).trans (List.perm_append_singleton _ _).symm
  have hic : t.itemCount = l.length := by rw [h.2.2.2.1, hp.length_eq]
  have hbc1 : (afterLazyAlloc P t).binCount =
      if l.length = 0 then 32 else bucketsAfter l.length := by
    unfold afterLazyAlloc
    split
    · rename_i hs
      have := h.2.1 hs
      rw [hd.1, hb] at this
      rw [hb]
      unfold bucketsAfter at this ⊢
      split
      · rename_i h0
        rw [if_pos h0] at this
        omega
      · rfl
    · rename_i hs
      have h0 : t.binCount = 0 := h.1 (by simpa using hs)
      rw [hb] at h0
      have : l.length = 0 := by
        unfold bucketsAfter at h0
        split at h0
        · assumption
        · split at h0 <;> omega
      rw [if_pos this]
      exact hd.1
  have hlc : (linkItem P (afterLazyAlloc P t) x).itemCount = l.length + 1 := by
    show (afterLazyAlloc P t).itemCount + 1 = _
    rw [hc1, hic]
  have hlb : (linkItem P (afterLazyAlloc P t) x).binCount =
      if l.length = 0 then 32 else bucketsAfter l.length := hbc1
  have hrb : (ht_rehash P (linkItem P (afterLazyAlloc P t) x) true).binCount =
      if (l.length + 1) / 2 < 32 then 32 else (l.length + 1) / 2 := by
    rw [binCount_rehash_true, aimBinCount_default P hd, hlc]
  have e := ht_insert_new P hscan x.value x.addr true
  rw [e]
  by_cases htr : (linkItem P (afterLazyAlloc P t) x).itemCount /
      (linkItem P (afterLazyAlloc P t) x).binCount > P.max_ldfac_val
  · rw [if_pos htr]
    obtain ⟨h3, hp3⟩ := shaped_rehash P hmin h2 true
    refine ⟨h3, hp3.trans hperm, ?_⟩
    rw [hlc, hlb, hd.2.2.1] at htr
    exact hrb.trans ((growth_arith l.length hn).1 htr)
  · rw [if_neg htr]
    refine ⟨h2, hperm, ?_⟩
    rw [hlc, hlb, hd.2.2.1] at htr
    exact hlb.trans ((growth_arith l.length hn).2 htr)

/-- The table after inserting new keys one after the other into a freshly initialised
table, with the default policy and no allocation failure. -/
theorem insert_distinct_run (hd : IsDefault P) (l : List (ht_item K V)) :
    l.length < 4624 → l.Pairwise (fun a b => P.pred_func a.key b.key = false) →
    Shaped P (run P (ht_init : ht_type K V) (insertCalls l)) ∧
    (items (run P (ht_init : ht_type K V) (insertCalls l))).Perm l ∧
    (run P (ht_init : ht_type K V) (insertCalls l)).binCount = bucketsAfter l.length := by
  induction l using List.reverseRecOn with
  | nil =>
    intro _ _
    exact ⟨shaped_init P, List.Perm.refl _, rfl⟩
  | append_singleton l x ih =>
    intro hlen hpw
    rw [List.length_append, List.length_singleton] at hlen
    obtain ⟨hpl, _, hlx⟩ := List.pairwise_append.1 hpw
    obtain ⟨h, hp, hb⟩ := ih (by omega) hpl
    have hrun : run P (ht_init : ht_type K V) (insertCalls (l ++ [x])) =
        (ht_insert P (run P ht_init (insertCalls l)) x.key x.value true (some x.addr)
          true).2 := by
      unfold insertCalls
      rw [List.map_append, List.map_singleton, run_append]
      rfl
    rw [hrun, List.length_append, List.length_singleton]
    exact insert_distinct_step P hd l x h hp hb hlen
      (fun a ha => hlx a ha x (List.mem_singleton_self x))

theorem firstKeys_distinct (n : Nat) :
    (firstKeys n).Pairwise (fun a b => HASH_TABLE_DEFAULT_PRED a.key b.key = false) := by
  unfold firstKeys
  rw [List.pairwise_map]
  refine (List.pairwise_lt_range n).imp ?_
  intro a b hab
  simp only [HASH_TABLE_DEFAULT_PRED, beq_eq_false_iff_ne, ne_eq]
  omega

theorem firstKeys_length (n : Nat) : (firstKeys n).length = n := by
  simp [firstKeys]

end Growth

/-! ## Persistence of entries and of the bucket array -/

section Persistence
variable (P : Params K)

theorem isSome_of_find {t : ht_type K V} {key : K} {item : ht_item K V}
    (hf : ht_find P t key = some item) : t.binVec.isSome = true := by
  cases e : t.binVec with
  | some bv => rfl
  | none =>
    unfold ht_find at hf
    split at hf
    · simp only [bins, e, Option.getD_none, List.getD_eq_getElem?_getD,
        List.getElem?_nil, Option.getD_none, List.find?_nil] at hf
      exact absurd hf (by simp)
    · exact absurd hf (by simp)

/-- An entry that `ht_find` finds is still found, at the same node, after any
`ht_insert`. -/
theorem ht_find_insert_keeps (hL : Lawful P) {t : ht_type K V} (hw : wf P t) {key : K}
    {item : ht_item K V} (hf : ht_find P t key = some item) (k : K) (v : V) (mb : Bool)
    (mi : Option Nat) (mr : Bool) :
    ht_find P (ht_insert P t k v mb mi mr).2 key = some item := by
  have hs := isSome_of_find P hf
  cases hk : ht_find P t k with
  | some x => rw [ht_insert_found P hL.symm hk]; exact hf
  | none =>
    cases mi with
    | none => rw [ht_insert_fresh_nomem P hL hw hs hk]; exact hf
    | some a =>
      obtain ⟨_, hw1, hp1, _⟩ := ht_insert_fresh_alloc P hL hw hs hk v mb a mr
      obtain ⟨hm, hp⟩ := ht_find_mem P hf
      exact ht_find_of_mem P hL hw1 (hp1.mem_iff.2 (List.mem_cons_of_mem _ hm)) hp

/-- An entry that `ht_find` finds is still found, at the same node, after any call
that is neither `ht_clear` nor an `ht_erase` of a key considered the same. -/
theorem ht_find_step_keeps (hL : Lawful P) {t : ht_type K V} (hw : wf P t) {key : K}
    {item : ht_item K V} (hf : ht_find P t key = some item) (op : Op K V)
    (hk : op.keeps P key = true) : ht_find P (step P t op) key = some item := by
  cases op with
  | insert k v mb mi mr => exact ht_find_insert_keeps P hL hw hf k v mb mi mr
  | erase k mr =>
    have hne : P.pred_func k key = false := by
      simpa [Op.keeps] using hk
    have hne2 : P.pred_func key k = false := by
      cases h : P.pred_func key k
      · rfl
      · rw [hL.symm _ _ h] at hne
        exact absurd hne (by simp)
    cases hfk : ht_find P t k with
    | none =>
      show ht_find P (ht_erase P t k mr).2 key = some item
      rw [ht_erase_not_found P hfk]
      exact hf
    | some x =>
      show ht_find P (ht_erase P t k mr).2 key = some item
      rw [ht_find_erase_other P hL hw hfk mr key hne2]
      exact hf
  | find k => exact hf
  | rehash mb =>
    show ht_find P (ht_rehash P t mb) key = some item
    rw [ht_find_rehash P hL hw mb key]
    exact hf
  | clear => exact absurd hk (by simp [Op.keeps])

theorem ht_find_run_keeps (hL : Lawful P) {key : K} {item : ht_item K V}
    (ops : List (Op K V)) :
    ∀ t : ht_type K V, wf P t → ht_find P t key = some item →
      (∀ op ∈ ops, op.keeps P key = true) → ht_find P (run P t ops) key = some item := by
  induction ops with
  | nil => intro t _ hf _; exact hf
  | cons op rest ih =>
    intro t hw hf hk
    exact ih _ (wf_step P hL hw op)
      (ht_find_step_keeps P hL hw hf op (hk op (List.mem_cons_self _ _)))
      (fun o ho => hk o (List.mem_cons_of_mem _ ho))

/-- The node that `ht_insert` returns is the one that `ht_find` finds afterwards, with
a bucket array present. -/
theorem ht_insert_returns_find_alloc (hL : Lawful P) {t : ht_type K V} (hw : wf P t)
    (hs : t.binVec.isSome = true) (key : K) (value : V) (mb : Bool) (mi : Option Nat)
    (mr : Bool) (item : ht_item K V)
    (hr : (ht_insert P t key value mb mi mr).1 = some item) :
    ht_find P (ht_insert P t key value mb mi mr).2 key = some item := by
  cases hk : ht_find P t key with
  | some x =>
    rw [ht_insert_found P hL.symm hk] at hr ⊢
    rw [← hr]
    exact hk
  | none =>
    cases mi with
    | none =>
      rw [ht_insert_fresh_nomem P hL hw hs hk] at hr
      exact absurd hr (by simp)
    | some a =>
      obtain ⟨h1, hw1, hp1, _⟩ := ht_insert_fresh_alloc P hL hw hs hk value mb a mr
      rw [h1] at hr
      rw [← Option.some.inj hr]
      exact ht_find_of_mem P hL hw1 (hp1.mem_iff.2 (List.mem_cons_self _ _)) (hL.refl key)

theorem ht_insert_returns_find (hL : Lawful P) {t : ht_type K V} (hw : wf P t)
    (key : K) (value : V) (mb : Bool) (mi : Option Nat) (mr : Bool) (item : ht_item K V)
    (hr : (ht_insert P t key value mb mi mr).1 = some item) :
    ht_find P (ht_insert P t key value mb mi mr).2 key = some item := by
  cases e : t.binVec with
  | some bv =>
    exact ht_insert_returns_find_alloc P hL hw (by rw [e]; rfl) key value mb mi mr item hr
  | none =>
    cases mb with
    | false =>
      have h2 : ht_insert P t key value false mi mr = (none, t) := by
        unfold ht_insert
        rw [(lazyAlloc_none P e).1]
      rw [h2] at hr
      exact absurd hr (by simp)
    | true =>
      rw [ht_insert_lazy P (lazyAlloc_none P e).2 key value true mi mr] at hr ⊢
      exact ht_insert_returns_find_alloc P hL (wf_freshBins P hL.min_pos) rfl key value
        true mi mr item hr

theorem isSome_insert {t : ht_type K V} (hs : t.binVec.isSome = true) (key : K) (value : V)
    (mb : Bool) (mi : Option Nat) (mr : Bool) :
    (ht_insert P t key value mb mi mr).2.binVec.isSome = true := by
  cases hscan : ((bins t).getD (P.hash_func key % t.binCount) []).find?
      (fun itemPtr => P.pred_func itemPtr.key key) with
  | some item => rw [ht_insert_scan_some P hs hscan]; exact hs
  | none =>
    cases mi with
    | none => rw [(ht_insert_scan_none P hs hscan value mb mr).1]; exact hs
    | some a =>
      rw [(ht_insert_scan_none P hs hscan value mb mr).2 a]
      split
      · exact isSome_rehash P (t := linkItem P t ⟨key, value, a⟩) rfl mr
      · rfl

theorem isSome_erase {t : ht_type K V} (hs : t.binVec.isSome = true) (key : K) (mr : Bool) :
    (ht_erase P t key mr).2.binVec.isSome = true := by
  by_cases hg : 0 < t.itemCount ∧ 0 < t.binCount
  · cases he : eraseChain P key ((bins t).getD (P.hash_func key % t.binCount) []) with
    | none => rw [ht_erase_chain_none P he]; exact hs
    | some chain =>
      rw [ht_erase_chain_some P hg he]
      split
      · exact isSome_rehash P (t := unlinkItem P t key chain) rfl mr
      · rfl
  · rw [ht_erase_guard P hg]; exact hs

theorem isSome_step {t : ht_type K V} (hs : t.binVec.isSome = true) (op : Op K V)
    (hc : op.isClear = false) : (step P t op).binVec.isSome = true := by
  cases op with
  | insert k v mb mi mr => exact isSome_insert P hs k v mb mi mr
  | erase k mr => exact isSome_erase P hs k mr
  | find k => exact hs
  | rehash mb => exact isSome_rehash P hs mb
  | clear => exact absurd hc (by simp [Op.isClear])

theorem binCount_rehash (t : ht_type K V) (mb : Bool) :
    (ht_rehash P t mb).binCount = if mb = true then aimBinCount P t else t.binCount := by
  cases mb with
  | true => rw [binCount_rehash_true]; rfl
  | false => rw [ht_rehash_false]; rfl

theorem aimBinCount_eq_max (t : ht_type K V) :
    aimBinCount P t = max (t.itemCount / P.aim_ldfac_val) P.min_bin_size_val := by
  unfold aimBinCount
  split <;> omega

theorem insertCalls_allocOk (l : List (ht_item K V)) :
    ∀ op ∈ insertCalls l, op.allocOk = true := by
  intro op hop
  obtain ⟨item, _, rfl⟩ := List.mem_map.1 hop
  rfl

end Persistence

/-! ## Direction of the automatic resizing -/

section Direction
variable (P : Params K)

/-- A rehash called with more than `max_ldfac_val = 16` items per bucket, on at least
32 buckets, does not shrink, and grows when its allocation succeeds. -/
theorem rehash_grows (hd : IsDefault P) {t : ht_type K V} (hbc : 32 ≤ t.binCount)
    (htr : t.itemCount / t.binCount > P.max_ldfac_val) (mr : Bool) :
    t.binCount ≤ (ht_rehash P t mr).binCount ∧
      t.binCount < (ht_rehash P t true).binCount := by
  rw [hd.2.2.1] at htr
  have h17 : 17 * t.binCount ≤ t.itemCount :=
    (Nat.le_div_iff_mul_le (by omega)).1 htr
  have hlt : t.binCount < aimBinCount P t := by
    rw [aimBinCount_default P hd]
    split <;> omega
  constructor
  · rw [binCount_rehash]
    split
    · exact Nat.le_of_lt hlt
    · exact Nat.le_refl _
  · rw [binCount_rehash_true]
    exact hlt

/-- A rehash called with more than `min_inv_ldfac_val = 16` buckets per item, on at
least 32 buckets, does not grow. -/
theorem rehash_shrinks (hd : IsDefault P) {t : ht_type K V} (hbc : 32 ≤ t.binCount)
    (hic : 0 < t.itemCount) (htr : t.binCount / t.itemCount > P.min_inv_ldfac_val)
    (mr : Bool) : (ht_rehash P t mr).binCount ≤ t.binCount := by
  rw [hd.2.2.2] at htr
  have h17 : 17 * t.itemCount ≤ t.binCount :=
    (Nat.le_div_iff_mul_le hic).1 htr
  rw [binCount_rehash]
  split
  · rw [aimBinCount_default P hd]
    split <;> omega
  · exact Nat.le_refl _

theorem rehashTriggered_scan_some {t : ht_type K V} (hs : t.binVec.isSome = true)
    {key : K} {item : ht_item K V}
    (hscan : ((bins t).getD (P.hash_func key % t.binCount) []).find?
      (fun itemPtr => P.pred_func itemPtr.key key) = some item)
    (mb : Bool) (mi : Option Nat) : rehashTriggered P t key mb mi = false := by
  unfold rehashTriggered
  rw [lazyAlloc_of_isSome P hs]
  simp only [hscan]

theorem rehashTriggered_scan_none {t : ht_type K V} (hs : t.binVec.isSome = true)
    {key : K}
    (hscan : ((bins t).getD (P.hash_func key % t.binCount) []).find?
      (fun itemPtr => P.pred_func itemPtr.key key) = none)
    (mb : Bool) (mi : Option Nat) :
    rehashTriggered P t key mb mi =
      (mi.isSome && decide ((t.itemCount + 1) / t.binCount > P.max_ldfac_val)) := by
  unfold rehashTriggered
  rw [lazyAlloc_of_isSome P hs]
  simp only [hscan]

theorem insert_binCount_alloc (hd : IsDefault P) {t : ht_type K V}
    (hs : t.binVec.isSome = true) (hbc : 32 ≤ t.binCount) (key : K) (value : V)
    (mb : Bool) (mi : Option Nat) (mr : Bool) :
    t.binCount ≤ (ht_insert P t key value mb mi mr).2.binCount ∧
    (rehashTriggered P t key mb mi = true →
      t.binCount < (ht_insert P t key value mb mi true).2.binCount) := by
  cases hscan : ((bins t).getD (P.hash_func key % t.binCount) []).find?
      (fun itemPtr => P.pred_func itemPtr.key key) with
  | some item =>
    rw [ht_insert_scan_some P hs hscan, rehashTriggered_scan_some P hs hscan]
    exact ⟨Nat.le_refl _, fun h => absurd h (by simp)⟩
  | none =>
    rw [rehashTriggered_scan_none P hs hscan]
    cases mi with
    | none =>
      rw [(ht_insert_scan_none P hs hscan value mb mr).1]
      exact ⟨Nat.le_refl _, fun h => absurd h (by simp)⟩
    | some a =>
      rw [(ht_insert_scan_none P hs hscan value mb mr).2 a,
        (ht_insert_scan_none P hs hscan value mb true).2 a]
      by_cases htr : (linkItem P t ⟨key, value, a⟩).itemCount /
          (linkItem P t ⟨key, value, a⟩).binCount > P.max_ldfac_val
      · rw [if_pos htr, if_pos htr]
        have := rehash_grows P hd (t := linkItem P t ⟨key, value, a⟩) hbc htr mr
        exact ⟨this.1, fun _ => this.2⟩
      · rw [if_neg htr]
        refine ⟨Nat.le_refl _, fun h => ?_⟩
        simp only [Option.isSome_some, Bool.true_and, decide_eq_true_eq] at h
        exact absurd h htr

/-- On a table without bucket array the growth trigger of `ht_insert` cannot fire with
the default policy: the first node gives 1 / 32 = 0. -/
theorem rehashTriggered_no_bins (hd : IsDefault P) {t : ht_type K V} (e : t.binVec = none)
    (key : K) (mb : Bool) (mi : Option Nat) : rehashTriggered P t key mb mi = false := by
  cases mb with
  | false =>
    unfold rehashTriggered
    rw [(lazyAlloc_none P e).1]
  | true =>
    unfold rehashTriggered
    rw [(lazyAlloc_none P e).2]
    simp only [scan_freshBins]
    have : ((freshBins P : ht_type K V).itemCount + 1) / (freshBins P : ht_type K V).binCount
        = 0 := by
      show (0 + 1) / P.min_bin_size_val = 0
      rw [hd.1]
    rw [this, hd.2.2.1]
    simp

theorem erase_binCount (hd : IsDefault P) {t : ht_type K V}
    (hbc : t.binCount = 0 ∨ 32 ≤ t.binCount) (key : K) (mr : Bool) :
    (ht_erase P t key mr).2.binCount ≤ t.binCount := by
  by_cases hg : 0 < t.itemCount ∧ 0 < t.binCount
  · cases he : eraseChain P key ((bins t).getD (P.hash_func key % t.binCount) []) with
    | none => rw [ht_erase_chain_none P he]
    | some chain =>
      have h32 : 32 ≤ t.binCount := by omega
      rw [ht_erase_chain_some P hg he]
      by_cases htr : 0 < (unlinkItem P t key chain).itemCount ∧
          (unlinkItem P t key chain).binCount / (unlinkItem P t key chain).itemCount
            > P.min_inv_ldfac_val
      · rw [if_pos htr]
        exact rehash_shrinks P hd (t := unlinkItem P t key chain) h32 htr.1 htr.2 mr
      · rw [if_neg htr]
        exact Nat.le_refl _
  · rw [ht_erase_guard P hg]

end Direction

/-! ## The properties of the specification, continued -/

section Claims2

/-- C11, as stated, fails.  With the default policy and no allocation failure,
inserting the 1000 pairwise distinct keys 0, ..., 999 into a freshly initialised table
leaves 272 buckets, not at least 500: the only rehash is the one of the 544th insert
(544 / 32 = 17 > 16), and its target is 544 / 2 = 272. -/
theorem growth_scenario_counterexample :
    IsDefault htest ∧ (firstKeys 1000).length = 1000 ∧
    (firstKeys 1000).Pairwise (fun a b => htest.pred_func a.key b.key = false) ∧
    (run htest ht_init (insertCalls (firstKeys 1000))).binCount = 272 ∧
    ¬ (500 ≤ (run htest ht_init (insertCalls (firstKeys 1000))).binCount) := by
  have h := (insert_distinct_run htest (isDefault_DEFINE7 _ _) (firstKeys 1000)
    (by rw [firstKeys_length]; decide) (firstKeys_distinct 1000)).2.2
  rw [firstKeys_length] at h
  have h272 : bucketsAfter 1000 = 272 := by decide
  rw [h272] at h
  refine ⟨isDefault_DEFINE7 _ _, firstKeys_length 1000, firstKeys_distinct 1000, h, ?_⟩
  rw [h]
  decide

/-- C11, amended.  With the default policy constants and no allocation failure,
inserting any 1000 keys, none considered the same as an earlier one, into a freshly
initialised table (for any hash function) leaves 1000 items in exactly 272 buckets. -/
theorem growth_scenario_amended (P : Params K) (hd : IsDefault P) (l : List (ht_item K V))
    (hlen : l.length = 1000)
    (hdist : l.Pairwise (fun a b => P.pred_func a.key b.key = false)) :
    (run P (ht_init : ht_type K V) (insertCalls l)).binCount = 272 ∧
    ht_size (run P (ht_init : ht_type K V) (insertCalls l)) = 1000 := by
  obtain ⟨h, hp, hb⟩ := insert_distinct_run P hd l (by rw [hlen]; decide) hdist
  constructor
  · rw [hb, hlen]
    decide
  · show (run P (ht_init : ht_type K V) (insertCalls l)).itemCount = 1000
    rw [h.2.2.2.1, hp.length_eq, hlen]

theorem growth_scenario_amended_witness :
    IsDefault htest ∧
    (run htest ht_init (insertCalls (firstKeys 1000))).binCount = 272 ∧
    ht_size (run htest ht_init (insertCalls (firstKeys 1000))) = 1000 :=
  ⟨isDefault_DEFINE7 _ _,
    growth_scenario_amended htest (isDefault_DEFINE7 _ _) (firstKeys 1000)
      (firstKeys_length 1000) (firstKeys_distinct 1000)⟩

/-- C12, as stated, fails.  A direct `ht_rehash` of the freshly initialised (Empty)
table whose allocation succeeds leaves a bucket array of 32 buckets: the table is no
longer in the Empty state. -/
theorem empty_rehash_counterexample :
    (ht_init : ht_type Nat Nat).binVec = none ∧
    (ht_init : ht_type Nat Nat).binCount = 0 ∧
    (ht_init : ht_type Nat Nat).itemCount = 0 ∧
    (ht_rehash htest (ht_init : ht_type Nat Nat) true).binVec.isSome = true ∧
    (ht_rehash htest (ht_init : ht_type Nat Nat) true).binCount = 32 := by
  decide

/-- C12, amended.  On a table in the Empty state, `ht_find`, `ht_erase` and `ht_clear`
leave the table in the Empty state whatever the allocator answers, and so does a
direct `ht_rehash` whose allocation fails; a direct `ht_rehash` whose allocation
succeeds, with a positive minimum bucket count, leaves the Allocated state with
`min_bin_size_val` empty buckets and no item. -/
theorem empty_state_transitions (P : Params K) (hmin : 0 < P.min_bin_size_val) :
    (∀ key, ht_find P (ht_init : ht_type K V) key = none ∧
      step P (ht_init : ht_type K V) (.find key) = ht_init) ∧
    (∀ key mr, ht_erase P (ht_init : ht_type K V) key mr = (0, ht_init)) ∧
    ht_clear (ht_init : ht_type K V) = ht_init ∧
    ht_rehash P (ht_init : ht_type K V) false = ht_init ∧
    ht_rehash P (ht_init : ht_type K V) true = freshBins P := by
  refine ⟨fun key => ⟨ht_find_no_items P rfl key, rfl⟩, ?_, rfl, ht_rehash_false P _, ?_⟩
  · intro key mr
    exact ht_erase_guard P (by simp [ht_init]) key mr
  · have ha : aimBinCount P (ht_init : ht_type K V) = P.min_bin_size_val := by
      unfold aimBinCount
      show (if 0 / P.aim_ldfac_val < P.min_bin_size_val then P.min_bin_size_val
        else 0 / P.aim_ldfac_val) = P.min_bin_size_val
      rw [Nat.zero_div, if_pos hmin]
    unfold ht_rehash
    rw [ha]
    have hne : P.min_bin_size_val ≠ (ht_init : ht_type K V).binCount := by
      show P.min_bin_size_val ≠ 0
      omega
    rw [if_pos hne]
    rfl

theorem empty_state_transitions_witness :
    0 < htest.min_bin_size_val ∧
    ht_erase htest (ht_init : ht_type Nat Nat) 5 true = (0, ht_init) ∧
    ht_rehash htest (ht_init : ht_type Nat Nat) false = ht_init ∧
    ht_rehash htest (ht_init : ht_type Nat Nat) true = freshBins htest :=
  ⟨by decide,
    (empty_state_transitions htest (by decide)).2.1 5 true,
    (empty_state_transitions htest (by decide)).2.2.2.1,
    (empty_state_transitions htest (by decide)).2.2.2.2⟩

/-- C13. Size is exact.  With a positive minimum bucket count, for any hash function
and predicate, in every table reached from `ht_init` by any sequence of calls with any
pattern of allocation successes and failures, `itemCount` (the value of `ht_size`) is
the sum of the lengths of all bucket chains. -/
theorem size_is_exact (P : Params K) (hmin : 0 < P.min_bin_size_val)
    (ops : List (Op K V)) :
    ht_size (run P (ht_init : ht_type K V) ops) =
      ((bins (run P (ht_init : ht_type K V) ops)).map List.length).sum := by
  have h := shaped_run P hmin ops ht_init (shaped_init P)
  show (run P (ht_init : ht_type K V) ops).itemCount = _
  rw [h.2.2.2.1, items, List.length_flatten]

theorem size_is_exact_witness :
    0 < htest.min_bin_size_val ∧
    ht_size (run htest ht_init callsWithFailures) =
      ((bins (run htest ht_init callsWithFailures)).map List.length).sum ∧
    ht_size (run htest ht_init callsWithFailures) = 3 :=
  ⟨by decide, size_is_exact htest (by decide) callsWithFailures, by decide⟩

/-- C14. Entry identity is stable.  For a lawful instantiation and a well-formed
table in which `ht_find` finds `key` at a node (with its address, key and value),
after any sequence of calls none of which is `ht_clear` or an `ht_erase` of a key
considered the same (any inserts, erases of other keys and rehashes, with any
allocator answers) `ht_find` finds `key` at that very node; and a node returned by
`ht_insert` is the node that `ht_find` finds for that key afterwards. -/
theorem entry_identity_stable (P : Params K) (hL : Lawful P) (t : ht_type K V)
    (hw : wf P t) (key : K) (item : ht_item K V) (hf : ht_find P t key = some item)
    (ops : List (Op K V)) (hk : ∀ op ∈ ops, op.keeps P key = true) :
    ht_find P (run P t ops) key = some item ∧
    item ∈ items (run P t ops) ∧
    (∀ k v mb mi mr node, (ht_insert P t k v mb mi mr).1 = some node →
      ht_find P (ht_insert P t k v mb mi mr).2 k = some node) := by
  have h := ht_find_run_keeps P hL ops t hw hf hk
  exact ⟨h, (ht_find_mem P h).1,
    fun k v mb mi mr node hr => ht_insert_returns_find P hL hw k v mb mi mr node hr⟩

theorem entry_identity_stable_witness :
    Lawful smallPolicy ∧ wf smallPolicy (run smallPolicy ht_init threeInserts) ∧
    ht_find smallPolicy (run smallPolicy ht_init threeInserts) 1 = some ⟨1, 101, 1001⟩ ∧
    (run smallPolicy (run smallPolicy ht_init threeInserts) callsKeepingOne).binCount = 3 ∧
    ht_find smallPolicy (run smallPolicy (run smallPolicy ht_init threeInserts)
      callsKeepingOne) 1 = some ⟨1, 101, 1001⟩ :=
  ⟨lawful_smallPolicy, by decide, by decide, by decide,
    (entry_identity_stable smallPolicy lawful_smallPolicy
      (run smallPolicy ht_init threeInserts) (by decide) 1 ⟨1, 101, 1001⟩ (by decide)
      callsKeepingOne (by decide)).1⟩

/-- C15. Key uniqueness.  For a lawful instantiation (predicate an equivalence,
keys considered the same hash equally), in every table reached from `ht_init` by any
sequence of calls with any allocator answers, no two entries at different positions,
in the same bucket or in different buckets, have keys that the predicate considers the
same. -/
theorem key_uniqueness (P : Params K) (hL : Lawful P) (ops : List (Op K V)) :
    (items (run P (ht_init : ht_type K V) ops)).Pairwise
      (fun a b => P.pred_func a.key b.key = false ∧ P.pred_func b.key a.key = false) := by
  have h := (wf_run P hL ops ht_init (wf_init P)).2.2.2.2
  exact h.imp (fun hab => ⟨hab, pred_symmetric P hL hab⟩)

theorem key_uniqueness_witness :
    Lawful htest ∧
    (items (run htest ht_init callsWithFailures)).length = 3 ∧
    (items (run htest ht_init callsWithFailures)).Pairwise
      (fun a b => htest.pred_func a.key b.key = false ∧
        htest.pred_func b.key a.key = false) :=
  ⟨lawful_htest, by decide, key_uniqueness htest lawful_htest callsWithFailures⟩

/-- C16. Bucket placement.  With a positive minimum bucket count, for any hash
function and predicate, in every table reached from `ht_init` by any sequence of calls
with any pattern of allocation successes and failures, every entry in the chain of
bucket `i` satisfies `hash_func(key) % binCount = i` for the current `binCount`. -/
theorem bucket_placement (P : Params K) (hmin : 0 < P.min_bin_size_val)
    (ops : List (Op K V)) (i : Nat) (item : ht_item K V)
    (hm : item ∈ (bins (run P (ht_init : ht_type K V) ops)).getD i []) :
    P.hash_func item.key % (run P (ht_init : ht_type K V) ops).binCount = i :=
  shaped_placed P (shaped_run P hmin ops ht_init (shaped_init P)) hm

theorem bucket_placement_witness :
    0 < smallPolicy.min_bin_size_val ∧
    (run smallPolicy ht_init growThenErase).binCount = 4 ∧
    (⟨3, 103, 1003⟩ : ht_item Nat Nat) ∈
      (bins (run smallPolicy ht_init growThenErase)).getD 3 [] ∧
    smallPolicy.hash_func 3 % (run smallPolicy ht_init growThenErase).binCount = 3 :=
  ⟨by decide, by decide, by decide,
    bucket_placement smallPolicy (by decide) growThenErase 3 ⟨3, 103, 1003⟩ (by decide)⟩


theorem shaped_lazyAlloc (P : Params K) {t t1 : ht_type K V} {mb : Bool}
    (h : Shaped P t) (hl : lazyAlloc P t mb = some t1) :
    Shaped P t1 ∧ t1.binVec.isSome = true := by
  refine ⟨?_, lazyAlloc_isSome P hl⟩
  cases e : t.binVec with
  | some bv =>
    rw [lazyAlloc_of_isSome P (by rw [e]; rfl)] at hl
    rw [← Option.some.inj hl]
    exact h
  | none =>
    cases mb with
    | false =>
      rw [(lazyAlloc_none P e).1] at hl
      exact absurd hl (by simp)
    | true =>
      rw [(lazyAlloc_none P e).2] at hl
      rw [← Option.some.inj hl]
      exact shaped_freshBins P

theorem index_defined (P : Params K) (hmin : 0 < P.min_bin_size_val) {t : ht_type K V}
    (h : Shaped P t) (hs : t.binVec.isSome = true) (key : K) :
    t.binCount ≠ 0 ∧ t.binVec.isSome = true ∧
      P.hash_func key % t.binCount < (bins t).length := by
  have hbc : 0 < t.binCount := Nat.lt_of_lt_of_le hmin (h.2.1 hs)
  refine ⟨Nat.pos_iff_ne_zero.1 hbc, hs, ?_⟩
  rw [h.2.2.1]
  exact Nat.mod_lt _ hbc

/-- C17. Bucket count floor and no division by zero.  With a positive minimum bucket
count, in every table reached from `ht_init` (any calls, any allocator answers) the
bucket array is absent with `binCount = 0`, or present with exactly `binCount` buckets
and `binCount` at least `min_bin_size_val`; hence the remainders `hash_func(key) %
binCount`, the bucket indexes and the division `itemCount / binCount` that `ht_find`,
`ht_insert` and `ht_erase` evaluate have a non-zero divisor and an index within the
bucket array, and `binCount / itemCount` in `ht_erase` is evaluated only with
`itemCount > 0`. -/
theorem bucket_floor_and_divisions (P : Params K) (hmin : 0 < P.min_bin_size_val)
    (ops : List (Op K V)) :
    ((run P (ht_init : ht_type K V) ops).binVec.isSome = false ∧
        (run P (ht_init : ht_type K V) ops).binCount = 0 ∨
      (run P (ht_init : ht_type K V) ops).binVec.isSome = true ∧
        P.min_bin_size_val ≤ (run P (ht_init : ht_type K V) ops).binCount ∧
        (bins (run P (ht_init : ht_type K V) ops)).length =
          (run P (ht_init : ht_type K V) ops).binCount) ∧
    (∀ key mb, find_defined P (run P (ht_init : ht_type K V) ops) key ∧
      insert_defined P (run P (ht_init : ht_type K V) ops) key mb ∧
      erase_defined P (run P (ht_init : ht_type K V) ops) key) := by
  have h := shaped_run P hmin ops ht_init (shaped_init P)
  constructor
  · cases e : (run P (ht_init : ht_type K V) ops).binVec.isSome with
    | false => exact Or.inl ⟨rfl, h.1 e⟩
    | true => exact Or.inr ⟨rfl, h.2.1 e, h.2.2.1⟩
  · intro key mb
    refine ⟨?_, ?_, ?_, ?_⟩
    · intro hg
      exact index_defined P hmin h (shaped_isSome P h hg.2) key
    · unfold insert_defined
      cases hl : lazyAlloc P (run P (ht_init : ht_type K V) ops) mb with
      | none => trivial
      | some t1 =>
        obtain ⟨h1, hs1⟩ := shaped_lazyAlloc P h hl
        obtain ⟨a, b, c⟩ := index_defined P hmin h1 hs1 key
        exact ⟨a, b, c, fun _ => a⟩
    · intro hg
      exact index_defined P hmin h (shaped_isSome P h hg.2) key
    · intro chain hpos
      exact Nat.pos_iff_ne_zero.1 hpos

theorem bucket_floor_and_divisions_witness :
    0 < htest.min_bin_size_val ∧
    (run htest ht_init callsWithFailures).binVec.isSome = true ∧
    (run htest ht_init callsWithFailures).binCount = 32 ∧
    find_defined htest (run htest ht_init callsWithFailures) 7 ∧
    insert_defined htest (run htest ht_init callsWithFailures) 7 true ∧
    erase_defined htest (run htest ht_init callsWithFailures) 7 :=
  ⟨by decide, by decide, by decide,
    (bucket_floor_and_divisions htest (by decide) callsWithFailures).2 7 true⟩

/-- C18. Rehash target.  After an `ht_rehash` whose allocation succeeds the bucket
count is max(itemCount / aim_ldfac_val, min_bin_size_val) with integer division, that
is max(itemCount / 2, 32) for the default constants; and when that target already is
the bucket count, `ht_rehash` returns the table exactly as it was (every chain in its
order) without consulting the allocator. -/
theorem rehash_target (P : Params K) (t : ht_type K V) :
    (ht_rehash P t true).binCount =
      max (t.itemCount / P.aim_ldfac_val) P.min_bin_size_val ∧
    (IsDefault P → (ht_rehash P t true).binCount = max (t.itemCount / 2) 32) ∧
    (max (t.itemCount / P.aim_ldfac_val) P.min_bin_size_val = t.binCount →
      ∀ mb, ht_rehash P t mb = t) := by
  refine ⟨?_, ?_, ?_⟩
  · rw [binCount_rehash_true, aimBinCount_eq_max]
  · intro hd
    rw [binCount_rehash_true, aimBinCount_eq_max, hd.1, hd.2.1]
  · intro he mb
    rw [← aimBinCount_eq_max] at he
    unfold ht_rehash
    rw [if_neg (by simp [he])]

theorem rehash_target_witness :
    IsDefault htest ∧
    (ht_rehash htest (run htest ht_init mixedCalls) true).binCount =
      max ((run htest ht_init mixedCalls).itemCount / 2) 32 ∧
    (ht_rehash smallPolicy (run smallPolicy ht_init threeInserts) true).binCount =
      max ((run smallPolicy ht_init threeInserts).itemCount / 1) 2 ∧
    max ((run htest ht_init twoInserts).itemCount / htest.aim_ldfac_val)
      htest.min_bin_size_val = (run htest ht_init twoInserts).binCount ∧
    ht_rehash htest (run htest ht_init twoInserts) true = run htest ht_init twoInserts :=
  ⟨isDefault_DEFINE7 _ _,
    (rehash_target htest (run htest ht_init mixedCalls)).2.1 (isDefault_DEFINE7 _ _),
    (rehash_target smallPolicy (run smallPolicy ht_init threeInserts)).1,
    by decide,
    (rehash_target htest (run htest ht_init twoInserts)).2.2 (by decide) true⟩

/-- C19. No shrink when the table empties.  When a table holds exactly one item and
`ht_find` finds `key`, `ht_erase` of `key` returns 1, sets the item count to 0 and
leaves exactly the table with that node unlinked: the bucket array is present with the
bucket count it had, and no rehash is attempted (the allocator answer plays no role).
No call other than `ht_clear` removes a bucket array that is present; `ht_clear`
does. -/
theorem no_shrink_when_emptied (P : Params K) (t : ht_type K V) (key : K)
    (item : ht_item K V) (h1 : t.itemCount = 1) (hf : ht_find P t key = some item)
    (mr : Bool) :
    (ht_erase P t key mr).1 = 1 ∧
    (ht_erase P t key mr).2.itemCount = 0 ∧
    (ht_erase P t key mr).2.binVec.isSome = true ∧
    (ht_erase P t key mr).2.binCount = t.binCount ∧
    (∃ chain, eraseChain P key ((bins t).getD (P.hash_func key % t.binCount) []) =
        some chain ∧ (ht_erase P t key mr).2 = unlinkItem P t key chain) ∧
    (∀ (u : ht_type K V) (op : Op K V), op.isClear = false → u.binVec.isSome = true →
      (step P u op).binVec.isSome = true) ∧
    (∀ u : ht_type K V, (ht_clear u).binVec = none) := by
  have hg : 0 < t.itemCount ∧ 0 < t.binCount := by
    unfold ht_find at hf
    by_contra hn
    rw [if_neg hn] at hf
    exact absurd hf (by simp)
  cases he : eraseChain P key ((bins t).getD (P.hash_func key % t.binCount) []) with
  | none =>
    have := ht_erase_chain_none P he mr
    unfold ht_find at hf
    rw [if_pos hg, (eraseChain_none P key _).1 he] at hf
    exact absurd hf (by simp)
  | some chain =>
    have hz : (unlinkItem P t key chain).itemCount = 0 := by
      show t.itemCount - 1 = 0
      omega
    have e : ht_erase P t key mr = (1, unlinkItem P t key chain) := by
      rw [ht_erase_chain_some P hg he, if_neg (by rw [hz]; simp)]
    rw [e]
    exact ⟨rfl, hz, rfl, rfl, ⟨chain, rfl, rfl⟩,
      fun u op hc hs => isSome_step P hs op hc, fun _ => rfl⟩

theorem no_shrink_when_emptied_witness :
    (run smallPolicy ht_init growThenErase).binCount = 4 ∧
    (ht_erase smallPolicy (run smallPolicy ht_init growThenErase) 2 true).2.itemCount = 1 ∧
    (ht_erase smallPolicy (run smallPolicy ht_init growThenErase) 2 false).2.binCount = 4 ∧
    ht_find smallPolicy (ht_erase smallPolicy (run smallPolicy ht_init growThenErase) 2
      false).2 3 = some ⟨3, 103, 1003⟩ ∧
    (ht_erase smallPolicy (ht_erase smallPolicy (run smallPolicy ht_init growThenErase) 2
      false).2 3 true).1 = 1 ∧
    (ht_erase smallPolicy (ht_erase smallPolicy (run smallPolicy ht_init growThenErase) 2
      false).2 3 true).2.itemCount = 0 ∧
    (ht_erase smallPolicy (ht_erase smallPolicy (run smallPolicy ht_init growThenErase) 2
      false).2 3 true).2.binCount = 4 :=
  ⟨by decide, by decide, by decide, by decide,
    (no_shrink_when_emptied smallPolicy
      (ht_erase smallPolicy (run smallPolicy ht_init growThenErase) 2 false).2 3
      ⟨3, 103, 1003⟩ (by decide) (by decide) true).1,
    (no_shrink_when_emptied smallPolicy
      (ht_erase smallPolicy (run smallPolicy ht_init growThenErase) 2 false).2 3
      ⟨3, 103, 1003⟩ (by decide) (by decide) true).2.1,
    by decide⟩

/-- C20. Direction of automatic resizing.  With the default policy constants, for
every well-formed table whose bucket count is 0 or at least 32: `ht_insert` never
decreases the bucket count, and strictly increases it whenever it reaches its rehash
call (its load-factor trigger fires) and the allocation of that rehash succeeds;
`ht_erase` never increases the bucket count. -/
theorem resize_direction (P : Params K) (hd : IsDefault P) (t : ht_type K V)
    (hw : wf P t) (hbc : t.binCount = 0 ∨ 32 ≤ t.binCount) :
    (∀ key value mb mi mr, t.binCount ≤ (ht_insert P t key value mb mi mr).2.binCount) ∧
    (∀ key value mb mi, rehashTriggered P t key mb mi = true →
      t.binCount < (ht_insert P t key value mb mi true).2.binCount) ∧
    (∀ key mr, (ht_erase P t key mr).2.binCount ≤ t.binCount) := by
  refine ⟨?_, ?_, fun key mr => erase_binCount P hd hbc key mr⟩
  · intro key value mb mi mr
    cases e : t.binVec with
    | none =>
      rw [(empty_of_no_bins P hw e).2]
      exact Nat.zero_le _
    | some bv =>
      have hs : t.binVec.isSome = true := by rw [e]; rfl
      have h32 : 32 ≤ t.binCount := by
        have := hw.1.1 hs
        omega
      exact (insert_binCount_alloc P hd hs h32 key value mb mi mr).1
  · intro key value mb mi htr
    cases e : t.binVec with
    | none =>
      rw [rehashTriggered_no_bins P hd e] at htr
      exact absurd htr (by simp)
    | some bv =>
      have hs : t.binVec.isSome = true := by rw [e]; rfl
      have h32 : 32 ≤ t.binCount := by
        have := hw.1.1 hs
        omega
      exact (insert_binCount_alloc P hd hs h32 key value mb mi true).2 htr

theorem resize_direction_witness :
    IsDefault htest ∧ wf htest (run htest ht_init twoInserts) ∧
    (run htest ht_init twoInserts).binCount = 32 ∧
    (run htest ht_init twoInserts).binCount ≤
      (ht_insert htest (run htest ht_init twoInserts) 3 30 true (some 1003)
        true).2.binCount ∧
    (ht_erase htest (run htest ht_init twoInserts) 1 true).2.binCount ≤
      (run htest ht_init twoInserts).binCount :=
  ⟨isDefault_DEFINE7 _ _, by decide, by decide,
    (resize_direction htest (isDefault_DEFINE7 _ _) (run htest ht_init twoInserts)
      (by decide) (by decide)).1 3 30 true (some 1003) true,
    (resize_direction htest (isDefault_DEFINE7 _ _) (run htest ht_init twoInserts)
      (by decide) (by decide)).2.2 1 true⟩

end Claims2

end HashTable
